import Mathlib

/-!
Verification of the DynamicDataStructures library (BinaryBuilder, Dictionary,
DynamicStringArray, DynamicArray) against its natural-language specification.

Byte buffers are modelled as `List Nat` (each element intended `< 256`);
machine pointers into a backing store are modelled as offsets from the store's
base, so pointer rebasing after a reallocation is the identity on the model.
Allocation (`malloc`/`realloc`/`calloc`) is an external service that may fail:
each operation that allocates takes an explicit `Bool` telling whether that
allocation succeeds.  The `float expansionRate` field is idealized as `ℚ`,
with the C float-to-integer conversion modelled as truncation (`ratFloorNat`).
-/

namespace DDS

/-- Value of a byte sequence read as an unsigned little-endian integer:
index 0 is the least significant byte. -/
def leVal : List Nat → Nat
  | [] => 0
  | b :: rest => b + 256 * leVal rest

/-- `(_blockSize <= _i) ? 0 : _block[_i]` — a byte fetch that zero-extends
past the end of the block. -/
def byteAt (l : List Nat) (i : Nat) : Nat :=
  if l.length ≤ i then 0 else l.getD i 0

/-- The loop body of `CompareMemoryBlocks` (Dictionary.c): compare bytes from
index `i - 1` (most significant) down to index 0. -/
def cmpFrom (a b : List Nat) : Nat → Int
  | 0 => 0
  | i + 1 =>
    let va := byteAt a i
    let vb := byteAt b i
    if va < vb then -1
    else if vb < va then 1
    else cmpFrom a b i

/-- `CompareMemoryBlocks` (Dictionary.c): treats the two blocks as
little-endian big numbers, returning -1 / 0 / 1. -/
def CompareMemoryBlocks (a b : List Nat) : Int :=
  cmpFrom a b (max a.length b.length)

/-- All entries of a byte list are actual byte values. -/
def isBytes (l : List Nat) : Prop := ∀ x ∈ l, x < 256

instance (l : List Nat) : Decidable (isBytes l) := by
  unfold isBytes; infer_instance

lemma leVal_lt_pow {l : List Nat} (h : isBytes l) : leVal l < 256 ^ l.length := by
  induction l with
  | nil => simp [leVal]
  | cons x rest ih =>
    have hx : x < 256 := h x (List.mem_cons_self x rest)
    have hr : leVal rest < 256 ^ rest.length :=
      ih (fun y hy => h y (List.mem_cons_of_mem x hy))
    calc x + 256 * leVal rest < 256 + 256 * leVal rest := by omega
      _ = 256 * (leVal rest + 1) := by ring
      _ ≤ 256 * 256 ^ rest.length := by
          exact Nat.mul_le_mul_left 256 (by omega)
      _ = 256 ^ (x :: rest).length := by
          rw [List.length_cons, pow_succ, Nat.mul_comm]

lemma isBytes_take {l : List Nat} (h : isBytes l) (n : Nat) : isBytes (l.take n) :=
  fun x hx => h x (List.mem_of_mem_take hx)

lemma leVal_take_lt {l : List Nat} (h : isBytes l) (n : Nat) :
    leVal (l.take n) < 256 ^ n := by
  have h1 : leVal (l.take n) < 256 ^ (l.take n).length := leVal_lt_pow (isBytes_take h n)
  have h2 : (l.take n).length ≤ n := by simp
  exact h1.trans_le (Nat.pow_le_pow_right (by omega) h2)

lemma leVal_take_succ (l : List Nat) (i : Nat) :
    leVal (l.take (i + 1)) = leVal (l.take i) + byteAt l i * 256 ^ i := by
  induction i generalizing l with
  | zero =>
    cases l with
    | nil => simp [leVal, byteAt]
    | cons x rest => simp [leVal, byteAt, List.getD]
  | succ i ih =>
    cases l with
    | nil => simp [leVal, byteAt]
    | cons x rest =>
      have hb : byteAt (x :: rest) (i + 1) = byteAt rest i := by
        simp only [byteAt, List.length_cons, List.getD_cons_succ,
          Nat.add_le_add_iff_right]
      simp only [List.take_succ_cons, leVal, ih rest, hb, pow_succ]
      ring

/-- One step of the comparison loop compared against the numeric values of
the two `i`-byte prefixes. -/
lemma cmpFrom_spec {a b : List Nat} (ha : isBytes a) (hb : isBytes b) (i : Nat) :
    (cmpFrom a b i = -1 ∧ leVal (a.take i) < leVal (b.take i)) ∨
    (cmpFrom a b i = 0 ∧ leVal (a.take i) = leVal (b.take i)) ∨
    (cmpFrom a b i = 1 ∧ leVal (b.take i) < leVal (a.take i)) := by
  induction i with
  | zero => simp [cmpFrom]
  | succ i ih =>
    have hta := leVal_take_lt ha i
    have htb := leVal_take_lt hb i
    have hsa := leVal_take_succ a i
    have hsb := leVal_take_succ b i
    by_cases h1 : byteAt a i < byteAt b i
    · left
      constructor
      · simp [cmpFrom, h1]
      · have : byteAt a i + 1 ≤ byteAt b i := h1
        have : (byteAt a i + 1) * 256 ^ i ≤ byteAt b i * 256 ^ i :=
          Nat.mul_le_mul_right _ this
        nlinarith [pow_pos (show 0 < 256 by omega) i]
    · by_cases h2 : byteAt b i < byteAt a i
      · right; right
        constructor
        · simp [cmpFrom, h1, h2]
        · have : (byteAt b i + 1) * 256 ^ i ≤ byteAt a i * 256 ^ i :=
            Nat.mul_le_mul_right _ h2
          nlinarith [pow_pos (show 0 < 256 by omega) i]
      · have heq : byteAt a i = byteAt b i := by omega
        have hred : cmpFrom a b (i + 1) = cmpFrom a b i := by
          simp [cmpFrom, h1, h2]
        rw [heq] at hsa
        rcases ih with ⟨hc, hv⟩ | ⟨hc, hv⟩ | ⟨hc, hv⟩
        · left; exact ⟨hred ▸ hc, by omega⟩
        · right; left; exact ⟨hred ▸ hc, by omega⟩
        · right; right; exact ⟨hred ▸ hc, by omega⟩

lemma cmp_spec {a b : List Nat} (ha : isBytes a) (hb : isBytes b) :
    (CompareMemoryBlocks a b = -1 ∧ leVal a < leVal b) ∨
    (CompareMemoryBlocks a b = 0 ∧ leVal a = leVal b) ∨
    (CompareMemoryBlocks a b = 1 ∧ leVal b < leVal a) := by
  have h := cmpFrom_spec ha hb (max a.length b.length)
  have hta : a.take (max a.length b.length) = a :=
    List.take_of_length_le (le_max_left _ _)
  have htb : b.take (max a.length b.length) = b :=
    List.take_of_length_le (le_max_right _ _)
  rw [hta, htb] at h
  exact h

lemma cmp_neg_iff {a b : List Nat} (ha : isBytes a) (hb : isBytes b) :
    CompareMemoryBlocks a b < 0 ↔ leVal a < leVal b := by
  rcases cmp_spec ha hb with ⟨hc, hv⟩ | ⟨hc, hv⟩ | ⟨hc, hv⟩ <;>
    rw [hc] <;> omega

lemma cmp_zero_iff {a b : List Nat} (ha : isBytes a) (hb : isBytes b) :
    CompareMemoryBlocks a b = 0 ↔ leVal a = leVal b := by
  rcases cmp_spec ha hb with ⟨hc, hv⟩ | ⟨hc, hv⟩ | ⟨hc, hv⟩ <;>
    rw [hc] <;> omega

lemma cmp_pos_iff {a b : List Nat} (ha : isBytes a) (hb : isBytes b) :
    0 < CompareMemoryBlocks a b ↔ leVal b < leVal a := by
  rcases cmp_spec ha hb with ⟨hc, hv⟩ | ⟨hc, hv⟩ | ⟨hc, hv⟩ <;>
    rw [hc] <;> omega

/-- C4: the dictionary key comparator compares byte sequences as unsigned
little-endian integers (missing high bytes of the shorter one read as zero):
negative iff A < B, zero iff A == B, positive iff A > B. -/
theorem compare_blocks_magnitude (a b : List Nat) (ha : isBytes a) (hb : isBytes b) :
    (CompareMemoryBlocks a b < 0 ↔ leVal a < leVal b) ∧
    (CompareMemoryBlocks a b = 0 ↔ leVal a = leVal b) ∧
    (0 < CompareMemoryBlocks a b ↔ leVal b < leVal a) :=
  ⟨cmp_neg_iff ha hb, cmp_zero_iff ha hb, cmp_pos_iff ha hb⟩

/-- Witness for C4 at concrete inputs `[0,1]` (=256) and `[255, 0, 0]` (=255):
the shorter/zero-padded comparison indeed reports A > B. -/
theorem compare_blocks_magnitude_witness :
    (CompareMemoryBlocks [0, 1] [255, 0, 0] < 0 ↔ leVal [0, 1] < leVal [255, 0, 0]) ∧
    (CompareMemoryBlocks [0, 1] [255, 0, 0] = 0 ↔ leVal [0, 1] = leVal [255, 0, 0]) ∧
    (0 < CompareMemoryBlocks [0, 1] [255, 0, 0] ↔ leVal [255, 0, 0] < leVal [0, 1]) :=
  compare_blocks_magnitude [0, 1] [255, 0, 0] (by decide) (by decide)

/-! ## Shared helpers: float truncation, memmove / memset on lists -/

/-- The C conversion of a non-negative float product to `size_t`: truncation
toward zero, i.e. the floor for non-negative rationals. -/
def ratFloorNat (q : ℚ) : Nat := q.num.toNat / q.den

lemma ratFloorNat_natCast (n : Nat) : ratFloorNat (n : ℚ) = n := by
  simp [ratFloorNat]

/-- `n ≤ trunc (n * q)` whenever `1 ≤ q`: expanding by a rate ≥ 1 never
shrinks the request. -/
lemma le_ratFloorNat_mul (n : Nat) (q : ℚ) (h : 1 ≤ q) :
    n ≤ ratFloorNat ((n : ℚ) * q) := by
  set p : ℚ := (n : ℚ) * q with hp
  have hnp : (n : ℚ) ≤ p := by
    calc (n : ℚ) = (n : ℚ) * 1 := by ring
      _ ≤ (n : ℚ) * q := by
          exact mul_le_mul_of_nonneg_left h (by positivity)
  have hden : (0 : ℚ) < (p.den : ℚ) := by exact_mod_cast p.den_pos
  have hpd : p * (p.den : ℚ) = (p.num : ℚ) := by
    have hd : ((p.den : ℚ)) ≠ 0 := ne_of_gt hden
    calc p * (p.den : ℚ)
        = ((p.num : ℚ) / (p.den : ℚ)) * (p.den : ℚ) := by rw [Rat.num_div_den]
      _ = (p.num : ℚ) := div_mul_cancel₀ _ hd
  have hq : (n : ℚ) * (p.den : ℚ) ≤ (p.num : ℚ) := by
    have := mul_le_mul_of_nonneg_right hnp (le_of_lt hden)
    calc (n : ℚ) * (p.den : ℚ) ≤ p * (p.den : ℚ) := this
      _ = (p.num : ℚ) := hpd
  have hint : (n : Int) * (p.den : Int) ≤ p.num := by exact_mod_cast hq
  have hnum : (n * p.den : Nat) ≤ p.num.toNat := by
    omega
  have := Nat.div_le_div_right (c := p.den) hnum
  rwa [Nat.mul_div_left n p.den_pos] at this

/-- `memmove` inside one list: copy `cnt` cells starting at index `src` onto
the cells starting at index `dst`.  Reading from the original list gives
exactly `memmove`'s overlap-safe semantics. -/
def listMove {α : Type} (l : List α) (dst src cnt : Nat) : List α :=
  l.take dst ++ (l.drop src).take cnt ++ l.drop (dst + cnt)

/-- Write the block `bytes` into `l` starting at index `dst`
(`memcpy`/`memset` from an external source). -/
def listWrite {α : Type} (l : List α) (dst : Nat) (bytes : List α) : List α :=
  l.take dst ++ bytes ++ l.drop (dst + bytes.length)

lemma listMove_length {α : Type} (l : List α) (dst src cnt : Nat)
    (h1 : dst + cnt ≤ l.length) (h2 : src + cnt ≤ l.length) :
    (listMove l dst src cnt).length = l.length := by
  simp [listMove]
  omega

lemma listWrite_length {α : Type} (l : List α) (dst : Nat) (bytes : List α)
    (h : dst + bytes.length ≤ l.length) :
    (listWrite l dst bytes).length = l.length := by
  simp [listWrite]
  omega

lemma listWrite_take {α : Type} (l : List α) (dst : Nat) (bytes : List α)
    (h : dst ≤ l.length) :
    (listWrite l dst bytes).take dst = l.take dst := by
  have hlen : (l.take dst).length = dst := by
    simp only [List.length_take]
    omega
  unfold listWrite
  rw [List.append_assoc]
  exact List.take_left' hlen

/-! ## BinaryBuilder (BinaryBuilder.c)

`writePtr` and `endPtr` are kept as offsets from `data`; the pointer
rebasing performed by `BinaryBuilder_SetMinSize` after a `realloc` is then
the identity.  The fresh part of a reallocated block is modelled as zeros
(its contents are never observed below `usedEnd`). -/

structure BinaryBuilder where
  capacity : Nat
  data : List Nat
  writeOffset : Nat
  usedEnd : Nat
  expansionRate : ℚ
deriving DecidableEq, Repr

/-- `BinaryBuilder_SetMinSize`: grow the backing store so that
`capacity ≥ minCapacity`.  `allocOk` tells whether the `realloc` succeeds. -/
def BinaryBuilder_SetMinSize (b : BinaryBuilder) (minCapacity : Nat)
    (allocOk : Bool) : Bool × BinaryBuilder :=
  if minCapacity ≤ b.capacity then (true, b)
  else if b.expansionRate ≤ 1 then (false, b)
  else
    let newCap := ratFloorNat ((minCapacity : ℚ) * b.expansionRate)
    if allocOk then
      (true, { b with capacity := newCap,
                      data := b.data.take newCap
                              ++ List.replicate (newCap - b.data.length) 0 })
    else (false, b)

/-- `BinaryBuilder_GetWriteOffset` (macro in BinaryBuilder.h). -/
def BinaryBuilder_GetWriteOffset (b : BinaryBuilder) : Nat := b.writeOffset

/-- `BinaryBuilder_ReserveSize`: ensure `reservedSize` free bytes after
`usedEnd`; `none` models the `UINTPTR_MAX` failure sentinel. -/
def BinaryBuilder_ReserveSize (b : BinaryBuilder) (reservedSize : Nat)
    (allocOk : Bool) : Option Nat × BinaryBuilder :=
  if b.capacity < b.usedEnd + reservedSize then
    if b.expansionRate ≤ 1 then (none, b)
    else
      match BinaryBuilder_SetMinSize b (b.capacity + reservedSize) allocOk with
      | (true, b') => (some (BinaryBuilder_GetWriteOffset b'), b')
      | (false, b') => (none, b')
  else (some (BinaryBuilder_GetWriteOffset b), b)

def BinaryBuilder_SetWriteOffset (b : BinaryBuilder) (off : Nat) :
    Bool × BinaryBuilder :=
  if b.usedEnd < off then (false, b)
  else (true, { b with writeOffset := off })

def BinaryBuilder_SetUsedSize (b : BinaryBuilder) (off : Nat) :
    Bool × BinaryBuilder :=
  if b.capacity ≤ off then (false, b)
  else (true, { b with usedEnd := off, writeOffset := min b.writeOffset off })

/-- `BinaryBuilder_Delete`: remove up to `len` bytes left of the write
cursor, shifting `[writeOffset, usedEnd)` leftward; returns the count
actually removed. -/
def BinaryBuilder_Delete (b : BinaryBuilder) (len : Nat) : Nat × BinaryBuilder :=
  let len' := if b.writeOffset < len then b.writeOffset else len
  if len' ≠ 0 then
    let data' := if b.writeOffset < b.usedEnd then
        listMove b.data (b.writeOffset - len') b.writeOffset
          (b.usedEnd - b.writeOffset)
      else b.data
    (len', { b with data := data', writeOffset := b.writeOffset - len',
                    usedEnd := b.usedEnd - len' })
  else (len', b)

/-- The `_source` parameter of the `SetBytes`/`InsertBytes` overload:
an address `≤ 0xFF` is a fill byte, anything larger a real pointer
(modelled by the pointed-to bytes). -/
inductive BBSrc : Type
  | fill (byte : Nat)
  | ptr (bytes : List Nat)
deriving DecidableEq, Repr

def BBSrc.written (src : BBSrc) (len : Nat) : List Nat :=
  match src with
  | .fill v => List.replicate len v
  | .ptr bytes => bytes.take len

def BinaryBuilder_SetByte (b : BinaryBuilder) (v : Nat) (allocOk : Bool) :
    Bool × BinaryBuilder :=
  match BinaryBuilder_ReserveSize b 1 allocOk with
  | (none, b') => (false, b')
  | (some _, b') =>
    (true, { b' with data := listWrite b'.data b'.writeOffset [v],
                     writeOffset := b'.writeOffset + 1,
                     usedEnd := max b'.usedEnd (b'.writeOffset + 1) })

def BinaryBuilder_SetBytes (b : BinaryBuilder) (src : BBSrc) (len : Nat)
    (allocOk : Bool) : Bool × BinaryBuilder :=
  if len = 0 then (false, b)
  else
    match BinaryBuilder_ReserveSize b len allocOk with
    | (none, b') => (false, b')
    | (some _, b') =>
      (true, { b' with data := listWrite b'.data b'.writeOffset (src.written len),
                       writeOffset := b'.writeOffset + len,
                       usedEnd := max b'.usedEnd (b'.writeOffset + len) })

def BinaryBuilder_InsertByte (b : BinaryBuilder) (v : Nat) (allocOk : Bool) :
    Bool × BinaryBuilder :=
  match BinaryBuilder_ReserveSize b 1 allocOk with
  | (none, b') => (false, b')
  | (some _, b') =>
    let d1 := if b'.writeOffset < b'.usedEnd then
        listMove b'.data (b'.writeOffset + 1) b'.writeOffset
          (b'.usedEnd - b'.writeOffset)
      else b'.data
    (true, { b' with data := listWrite d1 b'.writeOffset [v],
                     writeOffset := b'.writeOffset + 1,
                     usedEnd := b'.usedEnd + 1 })

/-- `BinaryBuilder_InsertBytes`: with the cursor strictly inside the content
the pointer variant first copies the source to a scratch region past the
content (reserving `2 * len`), then shifts, then copies from the scratch. -/
def BinaryBuilder_InsertBytes (b : BinaryBuilder) (src : BBSrc) (len : Nat)
    (allocOk : Bool) : Bool × BinaryBuilder :=
  if b.usedEnd ≤ b.writeOffset then BinaryBuilder_SetBytes b src len allocOk
  else if len = 0 then (false, b)
  else
    match src with
    | .ptr bytes =>
      (match BinaryBuilder_ReserveSize b (len * 2) allocOk with
       | (none, b') => (false, b')
       | (some _, b') =>
         let d1 := listWrite b'.data (b'.usedEnd + len) (bytes.take len)
         let d2 := listMove d1 (b'.writeOffset + len) b'.writeOffset
             (b'.usedEnd - b'.writeOffset)
         let d3 := listWrite d2 b'.writeOffset ((d2.drop (b'.usedEnd + len)).take len)
         (true, { b' with data := d3, writeOffset := b'.writeOffset + len,
                          usedEnd := b'.usedEnd + len }))
    | .fill v =>
      (match BinaryBuilder_ReserveSize b len allocOk with
       | (none, b') => (false, b')
       | (some _, b') =>
         let d1 := listMove b'.data (b'.writeOffset + len) b'.writeOffset
             (b'.usedEnd - b'.writeOffset)
         (true, { b' with data := listWrite d1 b'.writeOffset (List.replicate len v),
                          writeOffset := b'.writeOffset + len,
                          usedEnd := b'.usedEnd + len }))

def BinaryBuilder_Clear (b : BinaryBuilder) : BinaryBuilder :=
  { b with writeOffset := 0, usedEnd := 0 }

/-- `BinaryBuilder_InitWithMinSize` with a fresh builder (success path):
a `malloc`ed block of `minCapacity` bytes, both cursors at the base. -/
def BinaryBuilder_InitWithMinSize (minCapacity : Nat) (expansionRate : ℚ) :
    BinaryBuilder :=
  { capacity := minCapacity, data := List.replicate minCapacity 0,
    writeOffset := 0, usedEnd := 0, expansionRate := expansionRate + 1 }



/-- Well-formedness of a builder: the cursor invariant from the spec plus the
fact that the backing block really has `capacity` bytes. -/
def BBInv (b : BinaryBuilder) : Prop :=
  b.writeOffset ≤ b.usedEnd ∧ b.usedEnd ≤ b.capacity ∧ b.data.length = b.capacity

instance (b : BinaryBuilder) : Decidable (BBInv b) := by
  unfold BBInv; infer_instance

lemma setMinSize_spec (b : BinaryBuilder) (m : Nat) (a : Bool) :
    (BinaryBuilder_SetMinSize b m a).2.writeOffset = b.writeOffset ∧
    (BinaryBuilder_SetMinSize b m a).2.usedEnd = b.usedEnd ∧
    (BinaryBuilder_SetMinSize b m a).2.expansionRate = b.expansionRate ∧
    b.capacity ≤ (BinaryBuilder_SetMinSize b m a).2.capacity ∧
    (b.data.length = b.capacity →
      (BinaryBuilder_SetMinSize b m a).2.data.length =
        (BinaryBuilder_SetMinSize b m a).2.capacity) ∧
    ((BinaryBuilder_SetMinSize b m a).1 = true →
      m ≤ (BinaryBuilder_SetMinSize b m a).2.capacity) ∧
    ((BinaryBuilder_SetMinSize b m a).1 = false →
      (BinaryBuilder_SetMinSize b m a).2 = b) := by
  unfold BinaryBuilder_SetMinSize
  by_cases h1 : m ≤ b.capacity
  · simp [h1]
  · by_cases h2 : b.expansionRate ≤ 1
    · simp [h1, h2]
    · have hrate : (1 : ℚ) ≤ b.expansionRate := le_of_lt (lt_of_not_le h2)
      have hm : m ≤ ratFloorNat ((m : ℚ) * b.expansionRate) :=
        le_ratFloorNat_mul m b.expansionRate hrate
      cases a with
      | false => simp [h1, h2]
      | true =>
        refine ⟨?_, ?_, ?_, ?_, ?_, ?_, ?_⟩
        · simp [h1, h2]
        · simp [h1, h2]
        · simp [h1, h2]
        · simp [h1, h2]
          omega
        · intro hlen
          simp [h1, h2]
          omega
        · intro _
          simp [h1, h2]
          omega
        · intro hfalse
          simp [h1, h2] at hfalse

lemma reserveSize_spec (b : BinaryBuilder) (res : Nat) (a : Bool) (hInv : BBInv b) :
    BBInv (BinaryBuilder_ReserveSize b res a).2 ∧
    (BinaryBuilder_ReserveSize b res a).2.writeOffset = b.writeOffset ∧
    (BinaryBuilder_ReserveSize b res a).2.usedEnd = b.usedEnd ∧
    (BinaryBuilder_ReserveSize b res a).2.expansionRate = b.expansionRate ∧
    b.capacity ≤ (BinaryBuilder_ReserveSize b res a).2.capacity ∧
    ((BinaryBuilder_ReserveSize b res a).1 ≠ none →
      (BinaryBuilder_ReserveSize b res a).2.usedEnd + res ≤
        (BinaryBuilder_ReserveSize b res a).2.capacity) ∧
    ((BinaryBuilder_ReserveSize b res a).1 = none →
      (BinaryBuilder_ReserveSize b res a).2 = b) := by
  obtain ⟨hwu, huc, hdl⟩ := hInv
  unfold BinaryBuilder_ReserveSize
  by_cases h1 : b.capacity < b.usedEnd + res
  · rw [if_pos h1]
    by_cases h2 : b.expansionRate ≤ 1
    · rw [if_pos h2]
      refine ⟨⟨hwu, huc, hdl⟩, rfl, rfl, rfl, le_refl _, ?_, fun _ => rfl⟩
      intro h
      exact absurd rfl h
    · rw [if_neg h2]
      have hs := setMinSize_spec b (b.capacity + res) a
      rcases hr : BinaryBuilder_SetMinSize b (b.capacity + res) a with ⟨ok, b'⟩
      rw [hr] at hs
      obtain ⟨hw, hu, he, hc, hd, hok, hfail⟩ := hs
      dsimp only at hw hu he hc hd hok hfail
      cases ok with
      | true =>
        have hcap : b.capacity + res ≤ b'.capacity := hok rfl
        refine ⟨⟨?_, ?_, ?_⟩, ?_, ?_, ?_, ?_, ?_, ?_⟩
        · show b'.writeOffset ≤ b'.usedEnd
          omega
        · show b'.usedEnd ≤ b'.capacity
          omega
        · show b'.data.length = b'.capacity
          exact hd hdl
        · exact hw
        · exact hu
        · exact he
        · exact hc
        · intro _
          show b'.usedEnd + res ≤ b'.capacity
          omega
        · intro h
          exact absurd h (by simp)
      | false =>
        have hb' : b' = b := hfail rfl
        subst hb'
        exact ⟨⟨hwu, huc, hdl⟩, rfl, rfl, rfl, le_refl _, fun h => absurd rfl h,
          fun _ => rfl⟩
  · rw [if_neg h1]
    refine ⟨⟨hwu, huc, hdl⟩, rfl, rfl, rfl, le_refl _, ?_, fun _ => rfl⟩
    intro _
    show b.usedEnd + res ≤ b.capacity
    omega

lemma setWriteOffset_inv (b : BinaryBuilder) (n : Nat) (hInv : BBInv b) :
    BBInv (BinaryBuilder_SetWriteOffset b n).2 := by
  obtain ⟨hwu, huc, hdl⟩ := hInv
  unfold BinaryBuilder_SetWriteOffset
  by_cases h : b.usedEnd < n
  · rw [if_pos h]
    exact ⟨hwu, huc, hdl⟩
  · rw [if_neg h]
    exact ⟨by show n ≤ b.usedEnd; omega, huc, hdl⟩

lemma setUsedSize_inv (b : BinaryBuilder) (n : Nat) (hInv : BBInv b) :
    BBInv (BinaryBuilder_SetUsedSize b n).2 := by
  obtain ⟨hwu, huc, hdl⟩ := hInv
  unfold BinaryBuilder_SetUsedSize
  by_cases h : b.capacity ≤ n
  · rw [if_pos h]
    exact ⟨hwu, huc, hdl⟩
  · rw [if_neg h]
    refine ⟨?_, ?_, hdl⟩
    · show min b.writeOffset n ≤ n
      omega
    · show n ≤ b.capacity
      omega

lemma delete_inv (b : BinaryBuilder) (n : Nat) (hInv : BBInv b) :
    BBInv (BinaryBuilder_Delete b n).2 := by
  obtain ⟨hwu, huc, hdl⟩ := hInv
  unfold BinaryBuilder_Delete
  set len' := if b.writeOffset < n then b.writeOffset else n with hldef
  have hle : len' ≤ b.writeOffset := by
    rw [hldef]; split <;> omega
  by_cases h : len' ≠ 0
  · rw [if_pos h]
    by_cases h2 : b.writeOffset < b.usedEnd
    · rw [if_pos h2]
      refine ⟨?_, ?_, ?_⟩
      · show b.writeOffset - len' ≤ b.usedEnd - len'
        omega
      · show b.usedEnd - len' ≤ b.capacity
        omega
      · show (listMove b.data (b.writeOffset - len') b.writeOffset
          (b.usedEnd - b.writeOffset)).length = b.capacity
        rw [listMove_length b.data _ _ _ (by omega) (by omega)]
        exact hdl
    · rw [if_neg h2]
      refine ⟨?_, ?_, hdl⟩
      · show b.writeOffset - len' ≤ b.usedEnd - len'
        omega
      · show b.usedEnd - len' ≤ b.capacity
        omega
  · rw [if_neg h]
    exact ⟨hwu, huc, hdl⟩

lemma setBytes_inv (b : BinaryBuilder) (src : BBSrc) (n : Nat) (a : Bool)
    (hInv : BBInv b) : BBInv (BinaryBuilder_SetBytes b src n a).2 := by
  unfold BinaryBuilder_SetBytes
  by_cases h : n = 0
  · rw [if_pos h]
    exact hInv
  · rw [if_neg h]
    have hs := reserveSize_spec b n a hInv
    rcases hr : BinaryBuilder_ReserveSize b n a with ⟨res?, b'⟩
    rw [hr] at hs
    obtain ⟨⟨hwu', huc', hdl'⟩, hw, hu, he, hc, hgrow, hfail⟩ := hs
    dsimp only at hwu' huc' hdl' hw hu he hc hgrow hfail
    cases res? with
    | none => exact ⟨hwu', huc', hdl'⟩
    | some off =>
      have hcap : b'.usedEnd + n ≤ b'.capacity := hgrow (by simp)
      refine ⟨?_, ?_, ?_⟩
      · show b'.writeOffset + n ≤ max b'.usedEnd (b'.writeOffset + n)
        omega
      · show max b'.usedEnd (b'.writeOffset + n) ≤ b'.capacity
        omega
      · show (listWrite b'.data b'.writeOffset (src.written n)).length = b'.capacity
        have hwlen : (src.written n).length ≤ n := by
          cases src <;> simp [BBSrc.written]
        rw [listWrite_length b'.data _ _ (by omega)]
        exact hdl'

lemma setByte_inv (b : BinaryBuilder) (v : Nat) (a : Bool)
    (hInv : BBInv b) : BBInv (BinaryBuilder_SetByte b v a).2 := by
  unfold BinaryBuilder_SetByte
  have hs := reserveSize_spec b 1 a hInv
  rcases hr : BinaryBuilder_ReserveSize b 1 a with ⟨res?, b'⟩
  rw [hr] at hs
  obtain ⟨⟨hwu', huc', hdl'⟩, hw, hu, he, hc, hgrow, hfail⟩ := hs
  dsimp only at hwu' huc' hdl' hw hu he hc hgrow hfail
  cases res? with
  | none => exact ⟨hwu', huc', hdl'⟩
  | some off =>
    have hcap : b'.usedEnd + 1 ≤ b'.capacity := hgrow (by simp)
    refine ⟨?_, ?_, ?_⟩
    · show b'.writeOffset + 1 ≤ max b'.usedEnd (b'.writeOffset + 1)
      omega
    · show max b'.usedEnd (b'.writeOffset + 1) ≤ b'.capacity
      omega
    · show (listWrite b'.data b'.writeOffset [v]).length = b'.capacity
      rw [listWrite_length b'.data _ _ (by simp; omega)]
      exact hdl'

lemma insertByte_inv (b : BinaryBuilder) (v : Nat) (a : Bool)
    (hInv : BBInv b) : BBInv (BinaryBuilder_InsertByte b v a).2 := by
  unfold BinaryBuilder_InsertByte
  have hs := reserveSize_spec b 1 a hInv
  rcases hr : BinaryBuilder_ReserveSize b 1 a with ⟨res?, b'⟩
  rw [hr] at hs
  obtain ⟨⟨hwu', huc', hdl'⟩, hw, hu, he, hc, hgrow, hfail⟩ := hs
  dsimp only at hwu' huc' hdl' hw hu he hc hgrow hfail
  cases res? with
  | none => exact ⟨hwu', huc', hdl'⟩
  | some off =>
    have hcap : b'.usedEnd + 1 ≤ b'.capacity := hgrow (by simp)
    have hd1 : (if b'.writeOffset < b'.usedEnd then
        listMove b'.data (b'.writeOffset + 1) b'.writeOffset
          (b'.usedEnd - b'.writeOffset)
      else b'.data).length = b'.capacity := by
      split
      · rw [listMove_length b'.data _ _ _ (by omega) (by omega)]
        exact hdl'
      · exact hdl'
    refine ⟨?_, ?_, ?_⟩
    · show b'.writeOffset + 1 ≤ b'.usedEnd + 1
      omega
    · show b'.usedEnd + 1 ≤ b'.capacity
      omega
    · show (listWrite _ b'.writeOffset [v]).length = b'.capacity
      rw [listWrite_length _ _ _ (by simp; omega)]
      exact hd1

lemma insertBytes_inv (b : BinaryBuilder) (src : BBSrc) (n : Nat) (a : Bool)
    (hInv : BBInv b) : BBInv (BinaryBuilder_InsertBytes b src n a).2 := by
  unfold BinaryBuilder_InsertBytes
  by_cases h0 : b.usedEnd ≤ b.writeOffset
  · rw [if_pos h0]
    exact setBytes_inv b src n a hInv
  · rw [if_neg h0]
    by_cases h : n = 0
    · rw [if_pos h]
      exact hInv
    · rw [if_neg h]
      obtain ⟨hwu, huc, hdl⟩ := hInv
      cases src with
      | ptr bytes =>
        have hs := reserveSize_spec b (n * 2) a ⟨hwu, huc, hdl⟩
        rcases hr : BinaryBuilder_ReserveSize b (n * 2) a with ⟨res?, b'⟩
        rw [hr] at hs
        obtain ⟨⟨hwu', huc', hdl'⟩, hw, hu, he, hc, hgrow, hfail⟩ := hs
        dsimp only at hwu' huc' hdl' hw hu he hc hgrow hfail
        cases res? with
        | none => exact ⟨hwu', huc', hdl'⟩
        | some off =>
          have hcap : b'.usedEnd + n * 2 ≤ b'.capacity := hgrow (by simp)
          have hlen1 : (listWrite b'.data (b'.usedEnd + n) (bytes.take n)).length
              = b'.capacity := by
            have : (bytes.take n).length ≤ n := by simp
            rw [listWrite_length b'.data _ _ (by omega)]
            exact hdl'
          have hlen2 : (listMove (listWrite b'.data (b'.usedEnd + n) (bytes.take n))
              (b'.writeOffset + n) b'.writeOffset (b'.usedEnd - b'.writeOffset)).length
              = b'.capacity := by
            rw [listMove_length _ _ _ _ (by omega) (by omega)]
            exact hlen1
          refine ⟨?_, ?_, ?_⟩
          · show b'.writeOffset + n ≤ b'.usedEnd + n
            omega
          · show b'.usedEnd + n ≤ b'.capacity
            omega
          · show (listWrite _ b'.writeOffset _).length = b'.capacity
            have hwl : (((listMove (listWrite b'.data (b'.usedEnd + n) (bytes.take n))
                (b'.writeOffset + n) b'.writeOffset (b'.usedEnd - b'.writeOffset)).drop
                  (b'.usedEnd + n)).take n).length = n := by
              simp only [List.length_take, List.length_drop, hlen2]
              omega
            rw [listWrite_length _ _ _ (by rw [hwl]; omega)]
            exact hlen2
      | fill v =>
        have hs := reserveSize_spec b n a ⟨hwu, huc, hdl⟩
        rcases hr : BinaryBuilder_ReserveSize b n a with ⟨res?, b'⟩
        rw [hr] at hs
        obtain ⟨⟨hwu', huc', hdl'⟩, hw, hu, he, hc, hgrow, hfail⟩ := hs
        dsimp only at hwu' huc' hdl' hw hu he hc hgrow hfail
        cases res? with
        | none => exact ⟨hwu', huc', hdl'⟩
        | some off =>
          have hcap : b'.usedEnd + n ≤ b'.capacity := hgrow (by simp)
          have hlen1 : (listMove b'.data (b'.writeOffset + n) b'.writeOffset
              (b'.usedEnd - b'.writeOffset)).length = b'.capacity := by
            rw [listMove_length b'.data _ _ _ (by omega) (by omega)]
            exact hdl'
          refine ⟨?_, ?_, ?_⟩
          · show b'.writeOffset + n ≤ b'.usedEnd + n
            omega
          · show b'.usedEnd + n ≤ b'.capacity
            omega
          · show (listWrite _ b'.writeOffset (List.replicate n v)).length = b'.capacity
            rw [listWrite_length _ _ _ (by simp; omega)]
            exact hlen1

lemma clear_inv (b : BinaryBuilder) (hInv : BBInv b) :
    BBInv (BinaryBuilder_Clear b) := by
  obtain ⟨hwu, huc, hdl⟩ := hInv
  exact ⟨Nat.zero_le _, Nat.zero_le _, hdl⟩

/-- One public BinaryBuilder call together with the fate of any allocation
it performs. -/
inductive BBOp : Type
  | reserveSize (n : Nat) (a : Bool)
  | setWriteOffset (n : Nat)
  | setUsedSize (n : Nat)
  | delete (n : Nat)
  | setByte (v : Nat) (a : Bool)
  | setBytes (src : BBSrc) (n : Nat) (a : Bool)
  | insertByte (v : Nat) (a : Bool)
  | insertBytes (src : BBSrc) (n : Nat) (a : Bool)
  | clear
deriving DecidableEq, Repr

def applyBBOp (b : BinaryBuilder) : BBOp → BinaryBuilder
  | .reserveSize n a => (BinaryBuilder_ReserveSize b n a).2
  | .setWriteOffset n => (BinaryBuilder_SetWriteOffset b n).2
  | .setUsedSize n => (BinaryBuilder_SetUsedSize b n).2
  | .delete n => (BinaryBuilder_Delete b n).2
  | .setByte v a => (BinaryBuilder_SetByte b v a).2
  | .setBytes src n a => (BinaryBuilder_SetBytes b src n a).2
  | .insertByte v a => (BinaryBuilder_InsertByte b v a).2
  | .insertBytes src n a => (BinaryBuilder_InsertBytes b src n a).2
  | .clear => BinaryBuilder_Clear b

lemma applyBBOp_inv (b : BinaryBuilder) (op : BBOp) (hInv : BBInv b) :
    BBInv (applyBBOp b op) := by
  cases op with
  | reserveSize n a => exact (reserveSize_spec b n a hInv).1
  | setWriteOffset n => exact setWriteOffset_inv b n hInv
  | setUsedSize n => exact setUsedSize_inv b n hInv
  | delete n => exact delete_inv b n hInv
  | setByte v a => exact setByte_inv b v a hInv
  | setBytes src n a => exact setBytes_inv b src n a hInv
  | insertByte v a => exact insertByte_inv b v a hInv
  | insertBytes src n a => exact insertBytes_inv b src n a hInv
  | clear => exact clear_inv b hInv

lemma foldBBOp_inv (ops : List BBOp) (b : BinaryBuilder) (hInv : BBInv b) :
    BBInv (ops.foldl applyBBOp b) := by
  induction ops generalizing b with
  | nil => exact hInv
  | cons op rest ih => exact ih _ (applyBBOp_inv b op hInv)

lemma initWithMinSize_inv (minCapacity : Nat) (rate : ℚ) :
    BBInv (BinaryBuilder_InitWithMinSize minCapacity rate) := by
  refine ⟨Nat.le_refl 0, Nat.zero_le _, ?_⟩
  show (List.replicate minCapacity (0 : Nat)).length = minCapacity
  exact List.length_replicate minCapacity 0

/-- C7: for every builder state reachable from `InitWithMinSize` through any
sequence of the public operations (reserve, set/insert bytes, delete,
setWriteOffset, setUsedSize, clear) — with every allocation outcome, i.e.
after successful and failed calls alike — the cursor invariant
`0 ≤ writeOffset ≤ usedEnd ≤ capacity` holds after every call of the
sequence. -/
theorem builder_cursor_invariant (minCapacity : Nat) (rate : ℚ) (ops : List BBOp)
    (i : Nat) :
    ((ops.take i).foldl applyBBOp (BinaryBuilder_InitWithMinSize minCapacity rate)).writeOffset
      ≤ ((ops.take i).foldl applyBBOp (BinaryBuilder_InitWithMinSize minCapacity rate)).usedEnd
    ∧ ((ops.take i).foldl applyBBOp (BinaryBuilder_InitWithMinSize minCapacity rate)).usedEnd
      ≤ ((ops.take i).foldl applyBBOp (BinaryBuilder_InitWithMinSize minCapacity rate)).capacity := by
  have h := foldBBOp_inv (ops.take i) _ (initWithMinSize_inv minCapacity rate)
  exact ⟨h.1, h.2.1⟩

/-- C2: the growable-container reserve rule.  With `used = usedEnd` and the
stored rate `= 1 + expansionFactor`: if `capacity - used ≥ requestedAdditional`
nothing changes; otherwise a zero expansion factor fails the call; otherwise
(allocation succeeding) the new capacity is
`(capacity + requestedAdditional) * (1 + expansionFactor)` truncated to the
byte granularity. -/
theorem reserve_capacity_policy (b : BinaryBuilder) (req : Nat) (f : ℚ) (a : Bool)
    (hInv : BBInv b) (hf : b.expansionRate = f + 1) (hf0 : 0 ≤ f) :
    (req ≤ b.capacity - b.usedEnd →
      BinaryBuilder_ReserveSize b req a = (some b.writeOffset, b)) ∧
    (b.capacity - b.usedEnd < req → f = 0 →
      BinaryBuilder_ReserveSize b req a = (none, b)) ∧
    (b.capacity - b.usedEnd < req → 0 < f → a = true →
      (BinaryBuilder_ReserveSize b req a).2.capacity
        = ratFloorNat (((b.capacity + req : Nat) : ℚ) * (1 + f)) ∧
      (BinaryBuilder_ReserveSize b req a).1 = some b.writeOffset) := by
  obtain ⟨hwu, huc, hdl⟩ := hInv
  refine ⟨?_, ?_, ?_⟩
  · intro hfit
    unfold BinaryBuilder_ReserveSize
    rw [if_neg (by omega)]
    rfl
  · intro hneed hf0'
    have hrate : b.expansionRate ≤ 1 := by rw [hf, hf0']; norm_num
    unfold BinaryBuilder_ReserveSize
    rw [if_pos (by omega), if_pos hrate]
  · intro hneed hfpos ha
    have hrate : ¬ b.expansionRate ≤ 1 := by
      rw [hf]; intro hcon; nlinarith
    subst ha
    unfold BinaryBuilder_ReserveSize BinaryBuilder_SetMinSize
    rw [if_pos (by omega), if_neg hrate, if_neg (by omega), if_neg hrate]
    constructor
    · show ratFloorNat (((b.capacity + req : Nat) : ℚ) * b.expansionRate) = _
      rw [hf]
      rw [add_comm f 1]
    · rfl

def bbC2witness : BinaryBuilder :=
  { capacity := 4, data := [0, 0, 0, 0], writeOffset := 2, usedEnd := 3,
    expansionRate := 3 / 2 }

/-- Witness for C2: a builder with capacity 4, 3 bytes used, rate 1.5,
asked for 3 more bytes. -/
theorem reserve_capacity_policy_witness :
    (3 ≤ bbC2witness.capacity - bbC2witness.usedEnd →
      BinaryBuilder_ReserveSize bbC2witness 3 true = (some bbC2witness.writeOffset, bbC2witness)) ∧
    (bbC2witness.capacity - bbC2witness.usedEnd < 3 → (1 / 2 : ℚ) = 0 →
      BinaryBuilder_ReserveSize bbC2witness 3 true = (none, bbC2witness)) ∧
    (bbC2witness.capacity - bbC2witness.usedEnd < 3 → 0 < (1 / 2 : ℚ) → true = true →
      (BinaryBuilder_ReserveSize bbC2witness 3 true).2.capacity
        = ratFloorNat (((bbC2witness.capacity + 3 : Nat) : ℚ) * (1 + 1 / 2)) ∧
      (BinaryBuilder_ReserveSize bbC2witness 3 true).1 = some bbC2witness.writeOffset) :=
  reserve_capacity_policy bbC2witness 3 (1 / 2) true (by decide)
    (by norm_num [bbC2witness]) (by norm_num)

/-! ## Sorted Dictionary (Dictionary.c)

A `dictionary_entry_t`'s `key`/`data` pointers are `Option (List Nat)`
(`none` = NULL); a `some` buffer holds the full allocation, whose length is
`maxSize + 1` for a well-formed entry (the `+ 1` is the space the code keeps
for a terminator byte). -/

structure DictEntry where
  key : Option (List Nat)
  data : Option (List Nat)
  keyMaxSize : Nat
  dataMaxSize : Nat
  keySize : Nat
  dataSize : Nat
deriving DecidableEq, Repr

/-- A zeroed `dictionary_entry_t` (fresh `calloc`/`memset` storage). -/
def emptyEntry : DictEntry :=
  { key := none, data := none, keyMaxSize := 0, dataMaxSize := 0,
    keySize := 0, dataSize := 0 }

structure Dict where
  entries : List DictEntry
  elementCount : Nat
  maxElementCount : Nat
  expansionRate : ℚ
deriving DecidableEq, Repr

/-- The byte block `key[0..keySize)` the comparator reads for an entry. -/
def entryKey (e : DictEntry) : List Nat := (e.key.getD []).take e.keySize

/-- `_left + ((_right - _left) >> 1)` — the overflow-avoiding midpoint. -/
def midOf (left right : Nat) : Nat := left + (right - left) / 2

/-- The binary-search loop of `Dictionary_PickEntryIndex`, with explicit
fuel (`right - left` shrinks every iteration, so `elementCount` fuel is
always enough). -/
def pickEntryLoop (d : Dict) (k : List Nat) :
    Nat → Nat → Nat → Nat → Int → Int × Nat
  | 0, _, _, idx, cr => (cr, idx)
  | fuel + 1, left, right, idx, cr =>
    if left < right then
      if CompareMemoryBlocks k (entryKey (d.entries.getD (midOf left right) emptyEntry)) < 0 then
        pickEntryLoop d k fuel left (midOf left right) (midOf left right)
          (CompareMemoryBlocks k (entryKey (d.entries.getD (midOf left right) emptyEntry)))
      else if 0 < CompareMemoryBlocks k (entryKey (d.entries.getD (midOf left right) emptyEntry)) then
        pickEntryLoop d k fuel (midOf left right + 1) right (midOf left right)
          (CompareMemoryBlocks k (entryKey (d.entries.getD (midOf left right) emptyEntry)))
      else (0, midOf left right)
    else (cr, idx)

/-- `Dictionary_PickEntryIndex`: binary search for `k`; result `(0, i)` when
found, otherwise `(±1, lastProbe)` telling on which side of the last probed
entry the key belongs. -/
def Dictionary_PickEntryIndex (d : Dict) (k : List Nat) : Int × Nat :=
  if d.elementCount = 0 then (-1, 0)
  else pickEntryLoop d k d.elementCount 0 d.elementCount 0 (-1)

/-- `Dictionary_SetMinElements` — note: unlike `BinaryBuilder_SetMinSize`
there is no `expansionRate ≤ 1` guard before the `realloc`. -/
def Dictionary_SetMinElements (d : Dict) (minCount : Nat) (allocOk : Bool) :
    Bool × Dict :=
  if minCount ≤ d.maxElementCount then (true, d)
  else
    let m := ratFloorNat ((minCount : ℚ) * d.expansionRate)
    if allocOk then
      let grown := d.entries.take m ++ List.replicate (m - d.entries.length) emptyEntry
      (true, { d with entries := grown, maxElementCount := m })
    else (false, d)

def Dictionary_ReserveElements (d : Dict) (r : Nat) (allocOk : Bool) :
    Bool × Dict :=
  if d.maxElementCount < d.elementCount + r then
    Dictionary_SetMinElements d (d.maxElementCount + r) allocOk
  else (true, d)

/-- The `_data` argument of `Dictionary_Set`: address 0 = zero-fill the data
block, address 1 = leave the data block untouched, anything else = copy from
the pointed-to bytes. -/
inductive DataSrc : Type
  | fill0
  | noInit
  | copy (v : List Nat)
deriving DecidableEq, Repr

/-- The rotate-right performed by `Dictionary_Set` when inserting at `idx`:
the spare entry at `cnt` (one past the last valid entry) moves to `idx`, and
`[idx, cnt)` shifts rightward by one. -/
def rotateEntries (l : List DictEntry) (idx cnt : Nat) : List DictEntry :=
  l.take idx ++ [l.getD cnt emptyEntry] ++ (l.drop idx).take (cnt - idx)
    ++ l.drop (cnt + 1)

/-- Key-buffer initialization of `Dictionary_Set` (fresh `malloc`, `realloc`
growth, or in-place overwrite), returning `none` on allocation failure. -/
def dictSetKeyInit (e : DictEntry) (k : List Nat) (aKey : Bool) :
    Option DictEntry :=
  match e.key with
  | none =>
    if aKey then
      some { e with key := some (k ++ [0]), keyMaxSize := k.length,
                    keySize := k.length }
    else none
  | some kb =>
    if e.keyMaxSize < k.length then
      if aKey then
        some { e with key := some (k ++ [0]), keyMaxSize := k.length,
                      keySize := k.length }
      else none
    else
      some { e with key := some (k ++ [0] ++ kb.drop (k.length + 1)),
                    keySize := k.length }

/-- Data-buffer `calloc` of `Dictionary_Set` for a fresh entry. -/
def dictSetDataInit (e : DictEntry) (dataSize : Nat) (aData : Bool) :
    Option DictEntry :=
  match e.data with
  | none =>
    if aData then
      some { e with data := some (List.replicate (dataSize + 1) 0),
                    dataMaxSize := dataSize }
    else none
  | some _ => some e

/-- The final `switch ((uintptr_t)_data)` of `Dictionary_Set`: write the
value into the entry's data block and set `dataSize`. -/
def dictDataWrite (d : Dict) (idx : Nat) (src : DataSrc) (dataSize : Nat) :
    Option (List Nat) × Dict :=
  let e := d.entries.getD idx emptyEntry
  let db := e.data.getD []
  let db' := match src with
    | .fill0 => List.replicate (dataSize + 1) 0 ++ db.drop (dataSize + 1)
    | .noInit => db
    | .copy v => v.take dataSize ++ [0] ++ db.drop (dataSize + 1)
  let e' := { e with data := some db', dataSize := dataSize }
  (some db', { d with entries := d.entries.set idx e' })

/-- The data-block growth of `Dictionary_Set`'s tail: `realloc` to
`dataSize + 1` bytes and zero-fill the added region (terminator included). -/
def dictDataGrown (e : DictEntry) (dataSize : Nat) : DictEntry :=
  let db' := (e.data.getD []).take e.dataMaxSize
    ++ List.replicate (dataSize + 1 - e.dataMaxSize) 0
  { e with data := some db', dataMaxSize := dataSize }

/-- The shared tail of `Dictionary_Set`: grow the data block if needed
(`realloc` + zero-fill of the added region), then write. -/
def dictDataTail (d : Dict) (idx : Nat) (src : DataSrc) (dataSize : Nat)
    (aGrow : Bool) : Option (List Nat) × Dict :=
  if (d.entries.getD idx emptyEntry).dataMaxSize < dataSize then
    if aGrow then
      let eG := dictDataGrown (d.entries.getD idx emptyEntry) dataSize
      dictDataWrite { d with entries := d.entries.set idx eG } idx src dataSize
    else (none, d)
  else dictDataWrite d idx src dataSize

/-- The insertion continuation of `Dictionary_Set` after the entry-array
rotate: initialize the (reused) slot's key buffer, `calloc` a data buffer if
the slot has none, bump `elementCount`, then run the shared data tail.
`d2` is the dictionary with the spare slot already rotated to `idx`. -/
def dictInsertCont (d2 : Dict) (idx : Nat) (k : List Nat) (src : DataSrc)
    (dataSize : Nat) (aKey aData aGrow : Bool) : Option (List Nat) × Dict :=
  match dictSetKeyInit (d2.entries.getD idx emptyEntry) k aKey with
  | none => (none, d2)
  | some e1 =>
    match dictSetDataInit e1 dataSize aData with
    | none => (none, { d2 with entries := d2.entries.set idx e1 })
    | some e2 =>
      let d3 := { d2 with entries := d2.entries.set idx e2,
                          elementCount := d2.elementCount + 1 }
      dictDataTail d3 idx src dataSize aGrow

/-- `Dictionary_Set`.  The four `Bool`s are the fates of the four potential
allocations, in program order: entry-array `realloc`, key buffer
`malloc`/`realloc`, data buffer `calloc`, data buffer growth `realloc`.
Mirrors the C control flow: on a failed key/data allocation the function
returns `NULL` *after* the rotate has already happened. -/
def Dictionary_Set (d : Dict) (k : List Nat) (src : DataSrc) (dataSize : Nat)
    (aRes aKey aData aGrow : Bool) : Option (List Nat) × Dict :=
  let pick := Dictionary_PickEntryIndex d k
  if pick.1 = 0 then
    dictDataTail d pick.2 src dataSize aGrow
  else
    match Dictionary_ReserveElements d 1 aRes with
    | (false, d1) => (none, d1)
    | (true, d1) =>
      let idx := if pick.1 = 1 then pick.2 + 1 else pick.2
      if d1.elementCount - idx ≠ 0 then
        dictInsertCont { d1 with entries := rotateEntries d1.entries idx d1.elementCount }
          idx k src dataSize aKey aData aGrow
      else dictInsertCont d1 idx k src dataSize aKey aData aGrow

/-- The linear scan of `Dictionary_DeleteKey`: first valid entry whose
`keySize` and first `keySize` key bytes match exactly (`memcmp`). -/
def dictFindExact (d : Dict) (k : List Nat) : Option Nat :=
  (List.range d.elementCount).find? fun i =>
    (d.entries.getD i emptyEntry).keySize == k.length
      && ((d.entries.getD i emptyEntry).key.getD []).take k.length == k

/-- `Dictionary_DeleteKey`: remove the entry, shift the tail left, and park
the removed (still-allocated) entry at the spare slot behind the new end. -/
def Dictionary_DeleteKey (d : Dict) (k : List Nat) : Bool × Dict :=
  match dictFindExact d k with
  | none => (false, d)
  | some i =>
    let shifted := d.elementCount - 1 - i
    if shifted ≠ 0 then
      (true, { d with
        entries := d.entries.take i ++ (d.entries.drop (i + 1)).take shifted
          ++ [d.entries.getD i emptyEntry] ++ d.entries.drop d.elementCount,
        elementCount := d.elementCount - 1 })
    else
      (true, { d with elementCount := d.elementCount - 1 })

/-- `Dictionary_Get_Entry`, returning the found index instead of a raw
entry pointer. -/
def Dictionary_Get_Entry (d : Dict) (k : List Nat) : Option Nat :=
  if (Dictionary_PickEntryIndex d k).1 = 0 then
    some (Dictionary_PickEntryIndex d k).2
  else none

/-- `Dictionary_Get`: the data block and `dataSize` of the found entry. -/
def Dictionary_Get (d : Dict) (k : List Nat) : Option (List Nat × Nat) :=
  match Dictionary_Get_Entry d k with
  | none => none
  | some i =>
    some ((d.entries.getD i emptyEntry).data.getD [],
      (d.entries.getD i emptyEntry).dataSize)

/-- `Dictionary_InitWithMinSize` on a fresh dictionary (success path):
`calloc`ed, zero-filled entry array. -/
def Dictionary_InitWithMinSize (minCount : Nat) (expansionRate : ℚ) : Dict :=
  { entries := List.replicate minCount emptyEntry, elementCount := 0,
    maxElementCount := minCount, expansionRate := expansionRate + 1 }

/-! ## Dictionary well-formedness and the sorted invariant -/

/-- Well-formed `dictionary_entry_t`: an allocated key block has
`keyMaxSize + 1` bytes, all byte-valued, holds `0` at index `keySize`
(the terminator the code maintains), and `keySize ≤ keyMaxSize`;
an allocated data block has `dataMaxSize + 1` bytes with
`dataSize ≤ dataMaxSize`. -/
def EntryWF (e : DictEntry) : Prop :=
  (∀ kb ∈ e.key, kb.length = e.keyMaxSize + 1 ∧ e.keySize ≤ e.keyMaxSize ∧
    isBytes kb ∧ kb.getD e.keySize 1 = 0) ∧
  (∀ db ∈ e.data, db.length = e.dataMaxSize + 1 ∧ e.dataSize ≤ e.dataMaxSize) ∧
  (e.data = none → e.dataSize = 0)

/-- Well-formed dictionary: the entry array really has `maxElementCount`
slots, the valid prefix fits, the stored rate is ≥ 1 (the library is
initialized with a non-negative expansion factor), all slots are
well-formed entries, and every *valid* entry has allocated key and data
blocks. -/
def DictWF (d : Dict) : Prop :=
  d.entries.length = d.maxElementCount ∧
  d.elementCount ≤ d.maxElementCount ∧
  1 ≤ d.expansionRate ∧
  (∀ e ∈ d.entries, EntryWF e) ∧
  (∀ i, i < d.elementCount →
    (d.entries.getD i emptyEntry).key ≠ none ∧
    (d.entries.getD i emptyEntry).data ≠ none)

lemma emptyEntry_wf : EntryWF emptyEntry := by
  refine ⟨?_, ?_, fun _ => rfl⟩
  · intro kb hkb
    simp [emptyEntry] at hkb
  · intro db hdb
    simp [emptyEntry] at hdb

/-- Numeric value of the key stored at slot `i`. -/
def evAt (d : Dict) (i : Nat) : Nat :=
  leVal (entryKey (d.entries.getD i emptyEntry))

/-- The values of the valid entries' keys are strictly increasing. -/
def dictSortedVal (d : Dict) : Prop :=
  ∀ i j, i < j → j < d.elementCount → evAt d i < evAt d j

lemma getD_mem_or {α : Type} (l : List α) (i : Nat) (dflt : α) :
    l.getD i dflt ∈ l ∨ l.getD i dflt = dflt := by
  by_cases h : i < l.length
  · left
    rw [List.getD_eq_getElem l dflt h]
    exact List.getElem_mem h
  · right
    exact List.getD_eq_default l dflt (by omega)

lemma entryWF_getD {d : Dict} (hWF : DictWF d) (i : Nat) :
    EntryWF (d.entries.getD i emptyEntry) := by
  rcases getD_mem_or d.entries i emptyEntry with h | h
  · exact hWF.2.2.2.1 _ h
  · rw [h]
    exact emptyEntry_wf

lemma entryKey_isBytes_of_wf {e : DictEntry} (hWF : EntryWF e) :
    isBytes (entryKey e) := by
  unfold entryKey
  cases hk : e.key with
  | none => intro x hx; simp at hx
  | some kb =>
    have := (hWF.1 kb (by rw [hk]; rfl)).2.2.1
    exact isBytes_take this _

/-- Postcondition of the binary search: found exactly, or the carried
`(compareResult, pickedIndex)` pair brackets the key. -/
def PickPost (d : Dict) (k : List Nat) (r : Int × Nat) : Prop :=
  (r.1 = 0 ∧ r.2 < d.elementCount ∧ evAt d r.2 = leVal k) ∨
  (r.1 = -1 ∧ r.2 < d.elementCount ∧
    (∀ j, j < r.2 → evAt d j < leVal k) ∧
    (∀ j, r.2 ≤ j → j < d.elementCount → leVal k < evAt d j)) ∨
  (r.1 = 1 ∧ r.2 < d.elementCount ∧
    (∀ j, j ≤ r.2 → evAt d j < leVal k) ∧
    (∀ j, r.2 < j → j < d.elementCount → leVal k < evAt d j))

lemma pickEntryLoop_exit (d : Dict) (k : List Nat) (fuel left right idx : Nat)
    (cr : Int) (h : ¬ left < right) :
    pickEntryLoop d k fuel left right idx cr = (cr, idx) := by
  cases fuel with
  | zero => rfl
  | succ f =>
    rw [pickEntryLoop]
    rw [if_neg h]

lemma pickEntryLoop_post (d : Dict) (k : List Nat) (hk : isBytes k)
    (hWF : DictWF d) (hs : dictSortedVal d) :
    ∀ fuel left right idx cr,
      right - left ≤ fuel → left < right → right ≤ d.elementCount →
      (∀ j, j < left → evAt d j < leVal k) →
      (∀ j, right ≤ j → j < d.elementCount → leVal k < evAt d j) →
      PickPost d k (pickEntryLoop d k fuel left right idx cr) := by
  intro fuel
  induction fuel with
  | zero =>
    intro left right idx cr hf hlr hrc hl hr
    omega
  | succ f ih =>
    intro left right idx cr hf hlr hrc hl hr
    rw [pickEntryLoop, if_pos hlr]
    have hmlo : left ≤ midOf left right := by unfold midOf; omega
    have hmhi : midOf left right < right := by unfold midOf; omega
    have hmc : midOf left right < d.elementCount := by omega
    have hbK : isBytes (entryKey (d.entries.getD (midOf left right) emptyEntry)) :=
      entryKey_isBytes_of_wf (entryWF_getD hWF (midOf left right))
    have hev : evAt d (midOf left right)
        = leVal (entryKey (d.entries.getD (midOf left right) emptyEntry)) := rfl
    rcases Nat.lt_trichotomy (leVal k) (evAt d (midOf left right)) with hv | hv | hv
    · -- key is left of mid
      have hc : CompareMemoryBlocks k
          (entryKey (d.entries.getD (midOf left right) emptyEntry)) = -1 := by
        rcases cmp_spec hk hbK with ⟨h1, _⟩ | ⟨h1, h2⟩ | ⟨h1, h2⟩
        · exact h1
        · omega
        · omega
      rw [hc, if_pos (by norm_num)]
      have hr' : ∀ j, midOf left right ≤ j → j < d.elementCount →
          leVal k < evAt d j := by
        intro j hj1 hj2
        rcases Nat.eq_or_lt_of_le hj1 with hj | hj
        · rw [← hj]; exact hv
        · exact hv.trans (hs _ _ hj hj2)
      by_cases hlm : left < midOf left right
      · exact ih left (midOf left right) (midOf left right) (-1)
          (by omega) hlm (by omega) hl hr'
      · rw [pickEntryLoop_exit d k f left (midOf left right) _ _ (by omega)]
        right; left
        exact ⟨rfl, hmc, fun j hj => hl j (by omega), hr'⟩
    · -- key found at mid
      have hc : CompareMemoryBlocks k
          (entryKey (d.entries.getD (midOf left right) emptyEntry)) = 0 := by
        rcases cmp_spec hk hbK with ⟨h1, h2⟩ | ⟨h1, _⟩ | ⟨h1, h2⟩
        · omega
        · exact h1
        · omega
      rw [hc, if_neg (by norm_num), if_neg (by norm_num)]
      left
      exact ⟨rfl, hmc, hv.symm⟩
    · -- key is right of mid
      have hc : CompareMemoryBlocks k
          (entryKey (d.entries.getD (midOf left right) emptyEntry)) = 1 := by
        rcases cmp_spec hk hbK with ⟨h1, h2⟩ | ⟨h1, h2⟩ | ⟨h1, _⟩
        · omega
        · omega
        · exact h1
      rw [hc, if_neg (by norm_num), if_pos (by norm_num)]
      have hl' : ∀ j, j < midOf left right + 1 → evAt d j < leVal k := by
        intro j hj
        rcases Nat.lt_or_ge j (midOf left right) with hj2 | hj2
        · exact (hs _ _ hj2 hmc).trans hv
        · have : j = midOf left right := by omega
          rw [this]; exact hv
      by_cases hlm : midOf left right + 1 < right
      · exact ih (midOf left right + 1) right (midOf left right) 1
          (by omega) hlm hrc (fun j hj => hl' j hj) hr
      · rw [pickEntryLoop_exit d k f (midOf left right + 1) right _ _ (by omega)]
        right; right
        refine ⟨rfl, hmc, fun j hj => hl' j (by omega), ?_⟩
        intro j hj1 hj2
        exact hr j (by omega) hj2

lemma pick_post (d : Dict) (k : List Nat) (hk : isBytes k) (hWF : DictWF d)
    (hs : dictSortedVal d) (hne : d.elementCount ≠ 0) :
    PickPost d k (Dictionary_PickEntryIndex d k) := by
  unfold Dictionary_PickEntryIndex
  rw [if_neg hne]
  exact pickEntryLoop_post d k hk hWF hs d.elementCount 0 d.elementCount 0 (-1)
    (by omega) (by omega) (le_refl _) (fun j hj => by omega)
    (fun j hj1 hj2 => by omega)

lemma pick_found (d : Dict) (k : List Nat) (hk : isBytes k) (hWF : DictWF d)
    (hs : dictSortedVal d) (h0 : (Dictionary_PickEntryIndex d k).1 = 0) :
    (Dictionary_PickEntryIndex d k).2 < d.elementCount ∧
    evAt d (Dictionary_PickEntryIndex d k).2 = leVal k := by
  have hne : d.elementCount ≠ 0 := by
    intro hz
    unfold Dictionary_PickEntryIndex at h0
    rw [if_pos hz] at h0
    norm_num at h0
  rcases pick_post d k hk hWF hs hne with ⟨_, h2, h3⟩ | ⟨h1, _⟩ | ⟨h1, _⟩
  · exact ⟨h2, h3⟩
  · omega
  · omega

/-- The sorted insertion slot `Dictionary_Set` computes from the search
result: `pickedIndex + 1` when the key is greater than the probed entry,
`pickedIndex` otherwise. -/
def insertPos (d : Dict) (k : List Nat) : Nat :=
  if (Dictionary_PickEntryIndex d k).1 = 1 then (Dictionary_PickEntryIndex d k).2 + 1
  else (Dictionary_PickEntryIndex d k).2

lemma pick_not_found (d : Dict) (k : List Nat) (hk : isBytes k) (hWF : DictWF d)
    (hs : dictSortedVal d) (h0 : (Dictionary_PickEntryIndex d k).1 ≠ 0) :
    insertPos d k ≤ d.elementCount ∧
    (∀ j, j < insertPos d k → evAt d j < leVal k) ∧
    (∀ j, insertPos d k ≤ j → j < d.elementCount → leVal k < evAt d j) := by
  by_cases hne : d.elementCount = 0
  · have hp : Dictionary_PickEntryIndex d k = (-1, 0) := by
      unfold Dictionary_PickEntryIndex
      rw [if_pos hne]
    unfold insertPos
    rw [hp]
    norm_num
    omega
  · rcases pick_post d k hk hWF hs hne with ⟨h1, _⟩ | ⟨h1, h2, h3, h4⟩ | ⟨h1, h2, h3, h4⟩
    · exact absurd h1 h0
    · unfold insertPos
      rw [h1]
      rw [if_neg (by norm_num)]
      exact ⟨by omega, h3, h4⟩
    · unfold insertPos
      rw [h1]
      rw [if_pos rfl]
      refine ⟨by omega, fun j hj => h3 j (by omega), fun j hj1 hj2 => h4 j (by omega) hj2⟩

/-- If a valid entry carries the key's value, the binary search finds it. -/
lemma pick_finds (d : Dict) (k : List Nat) (hk : isBytes k) (hWF : DictWF d)
    (hs : dictSortedVal d) (i : Nat) (hi : i < d.elementCount)
    (hev : evAt d i = leVal k) : (Dictionary_PickEntryIndex d k).1 = 0 := by
  by_contra h0
  obtain ⟨hp, hlt, hgt⟩ := pick_not_found d k hk hWF hs h0
  rcases Nat.lt_or_ge i (insertPos d k) with hcase | hcase
  · have := hlt i hcase
    omega
  · have := hgt i hcase hi
    omega

lemma sortedVal_unique {d : Dict} (hs : dictSortedVal d) (i j : Nat)
    (hi : i < d.elementCount) (hj : j < d.elementCount)
    (hev : evAt d i = evAt d j) : i = j := by
  rcases Nat.lt_trichotomy i j with h | h | h
  · have := hs i j h hj
    omega
  · exact h
  · have := hs j i h hi
    omega

/-! ### index bookkeeping for the entry-array surgeries -/

lemma getD_append_left {α : Type} (l1 l2 : List α) (j : Nat) (dflt : α)
    (h : j < l1.length) : (l1 ++ l2).getD j dflt = l1.getD j dflt :=
  List.getD_append l1 l2 dflt j h

lemma getD_append_right' {α : Type} (l1 l2 : List α) (j : Nat) (dflt : α)
    (h : l1.length ≤ j) : (l1 ++ l2).getD j dflt = l2.getD (j - l1.length) dflt :=
  List.getD_append_right l1 l2 dflt j h

lemma getD_take' {α : Type} (l : List α) (m j : Nat) (dflt : α) (h : j < m) :
    (l.take m).getD j dflt = l.getD j dflt := by
  rw [List.getD_eq_getElem?_getD, List.getD_eq_getElem?_getD, List.getElem?_take,
    if_pos h]

lemma getD_drop' {α : Type} (l : List α) (m j : Nat) (dflt : α) :
    (l.drop m).getD j dflt = l.getD (m + j) dflt := by
  rw [List.getD_eq_getElem?_getD, List.getD_eq_getElem?_getD, List.getElem?_drop]

lemma getD_set' {α : Type} (l : List α) (i j : Nat) (a dflt : α) :
    (l.set i a).getD j dflt =
      if i = j ∧ i < l.length then a else l.getD j dflt := by
  rw [List.getD_eq_getElem?_getD, List.getD_eq_getElem?_getD, List.getElem?_set]
  by_cases h1 : i = j
  · subst h1
    by_cases h2 : i < l.length
    · simp [h2]
    · rw [if_pos rfl, if_neg h2, if_neg (by tauto)]
      rw [List.getElem?_eq_none (by omega)]
  · rw [if_neg h1, if_neg (by tauto)]

lemma getD_replicate' {α : Type} (n j : Nat) (x dflt : α) :
    (List.replicate n x).getD j dflt = if j < n then x else dflt := by
  by_cases h : j < n
  · rw [if_pos h, List.getD_eq_getElem, List.getElem_replicate]
    simp [h]
  · rw [if_neg h, List.getD_eq_default]
    simp
    omega

lemma rotateEntries_length (l : List DictEntry) (p cnt : Nat) (hp : p ≤ cnt)
    (hc : cnt < l.length) : (rotateEntries l p cnt).length = l.length := by
  unfold rotateEntries
  simp only [List.length_append, List.length_take, List.length_cons,
    List.length_nil, List.length_drop]
  omega

lemma rotateEntries_getD (l : List DictEntry) (p cnt j : Nat) (hp : p ≤ cnt)
    (hc : cnt < l.length) :
    (rotateEntries l p cnt).getD j emptyEntry =
      if j < p then l.getD j emptyEntry
      else if j = p then l.getD cnt emptyEntry
      else if j ≤ cnt then l.getD (j - 1) emptyEntry
      else l.getD j emptyEntry := by
  unfold rotateEntries
  have hT : (l.take p).length = p := by
    simp only [List.length_take]
    omega
  have hA : ((l.drop p).take (cnt - p)).length = cnt - p := by
    simp only [List.length_take, List.length_drop]
    omega
  have hTX : (l.take p ++ [l.getD cnt emptyEntry]).length = p + 1 := by
    simp only [List.length_append, hT, List.length_cons, List.length_nil]
  have hTXA : (l.take p ++ [l.getD cnt emptyEntry]
      ++ (l.drop p).take (cnt - p)).length = cnt + 1 := by
    simp only [List.length_append, hT, List.length_cons, List.length_nil, hA]
    omega
  by_cases h1 : j < p
  · rw [if_pos h1, getD_append_left _ _ _ _ (by omega),
      getD_append_left _ _ _ _ (by omega), getD_append_left _ _ _ _ (by omega),
      getD_take' _ _ _ _ h1]
  · rw [if_neg h1]
    by_cases h2 : j = p
    · rw [if_pos h2, getD_append_left _ _ _ _ (by omega),
        getD_append_left _ _ _ _ (by omega),
        getD_append_right' _ _ _ _ (by omega)]
      subst h2
      rw [hT]
      simp
    · rw [if_neg h2]
      by_cases h3 : j ≤ cnt
      · rw [if_pos h3, getD_append_left _ _ _ _ (by omega),
          getD_append_right' _ _ _ _ (by omega), hTX,
          getD_take' _ _ _ _ (by omega), getD_drop']
        have harith : p + (j - (p + 1)) = j - 1 := by omega
        rw [harith]
      · rw [if_neg h3, getD_append_right' _ _ _ _ (by omega), hTXA, getD_drop']
        have harith : cnt + 1 + (j - (cnt + 1)) = j := by omega
        rw [harith]

lemma deleteShift_length (l : List DictEntry) (i cnt : Nat) (hi : i < cnt)
    (hc : cnt ≤ l.length) :
    (l.take i ++ (l.drop (i + 1)).take (cnt - 1 - i) ++ [l.getD i emptyEntry]
      ++ l.drop cnt).length = l.length := by
  simp only [List.length_append, List.length_take, List.length_cons,
    List.length_nil, List.length_drop]
  omega

lemma deleteShift_getD (l : List DictEntry) (i cnt j : Nat) (hi : i < cnt)
    (hc : cnt ≤ l.length) :
    (l.take i ++ (l.drop (i + 1)).take (cnt - 1 - i) ++ [l.getD i emptyEntry]
      ++ l.drop cnt).getD j emptyEntry =
      if j < i then l.getD j emptyEntry
      else if j < cnt - 1 then l.getD (j + 1) emptyEntry
      else if j = cnt - 1 then l.getD i emptyEntry
      else l.getD j emptyEntry := by
  have hT : (l.take i).length = i := by
    simp only [List.length_take]
    omega
  have hA : ((l.drop (i + 1)).take (cnt - 1 - i)).length = cnt - 1 - i := by
    simp only [List.length_take, List.length_drop]
    omega
  have hTA : (l.take i ++ (l.drop (i + 1)).take (cnt - 1 - i)).length = cnt - 1 := by
    simp only [List.length_append, hT, hA]
    omega
  have hTAX : (l.take i ++ (l.drop (i + 1)).take (cnt - 1 - i)
      ++ [l.getD i emptyEntry]).length = cnt := by
    simp only [List.length_append, hT, hA, List.length_cons, List.length_nil]
    omega
  by_cases h1 : j < i
  · rw [if_pos h1, getD_append_left _ _ _ _ (by omega),
      getD_append_left _ _ _ _ (by omega), getD_append_left _ _ _ _ (by omega),
      getD_take' _ _ _ _ h1]
  · rw [if_neg h1]
    by_cases h2 : j < cnt - 1
    · rw [if_pos h2, getD_append_left _ _ _ _ (by omega),
        getD_append_left _ _ _ _ (by omega),
        getD_append_right' _ _ _ _ (by omega), hT,
        getD_take' _ _ _ _ (by omega), getD_drop']
      have harith : i + 1 + (j - i) = j + 1 := by omega
      rw [harith]
    · rw [if_neg h2]
      by_cases h3 : j = cnt - 1
      · rw [if_pos h3, getD_append_left _ _ _ _ (by omega),
          getD_append_right' _ _ _ _ (by omega), hTA]
        subst h3
        simp
      · rw [if_neg h3, getD_append_right' _ _ _ _ (by omega), hTAX, getD_drop']
        have harith : cnt + (j - cnt) = j := by omega
        rw [harith]

lemma dict_setMinElements_spec (d : Dict) (minCount : Nat) (a : Bool)
    (hWF : DictWF d) :
    ((Dictionary_SetMinElements d minCount a).1 = false →
      (Dictionary_SetMinElements d minCount a).2 = d) ∧
    ((Dictionary_SetMinElements d minCount a).1 = true →
      DictWF (Dictionary_SetMinElements d minCount a).2 ∧
      (Dictionary_SetMinElements d minCount a).2.elementCount = d.elementCount ∧
      (Dictionary_SetMinElements d minCount a).2.expansionRate = d.expansionRate ∧
      minCount ≤ (Dictionary_SetMinElements d minCount a).2.maxElementCount ∧
      ∀ j, (Dictionary_SetMinElements d minCount a).2.entries.getD j emptyEntry
        = d.entries.getD j emptyEntry) := by
  obtain ⟨hlen, hcnt, hrate, hent, hvis⟩ := hWF
  unfold Dictionary_SetMinElements
  by_cases h1 : minCount ≤ d.maxElementCount
  · rw [if_pos h1]
    exact ⟨(fun h => by cases h), fun _ =>
      ⟨⟨hlen, hcnt, hrate, hent, hvis⟩, rfl, rfl, h1, fun j => rfl⟩⟩
  · rw [if_neg h1]
    have hm : minCount ≤ ratFloorNat ((minCount : ℚ) * d.expansionRate) :=
      le_ratFloorNat_mul minCount d.expansionRate hrate
    set m := ratFloorNat ((minCount : ℚ) * d.expansionRate) with hmdef
    have htk : d.entries.take m = d.entries :=
      List.take_of_length_le (by omega)
    cases a with
    | false =>
      rw [if_neg (by simp)]
      exact ⟨fun _ => rfl, (fun h => by cases h)⟩
    | true =>
      rw [if_pos rfl]
      refine ⟨(fun h => by cases h), fun _ => ?_⟩
      have hglen : (d.entries.take m
          ++ List.replicate (m - d.entries.length) emptyEntry).length = m := by
        simp only [List.length_append, List.length_take, List.length_replicate]
        omega
      have hgetD : ∀ j, (d.entries.take m
          ++ List.replicate (m - d.entries.length) emptyEntry).getD j emptyEntry
          = d.entries.getD j emptyEntry := by
        intro j
        by_cases hj : j < d.entries.length
        · rw [getD_append_left _ _ _ _ (by rw [htk]; omega), htk]
        · rw [getD_append_right' _ _ _ _ (by rw [htk]; omega), htk,
            getD_replicate', List.getD_eq_default _ _ (by omega)]
          split <;> rfl
      refine ⟨⟨hglen, (by show d.elementCount ≤ m; omega), hrate, ?_, ?_⟩,
        rfl, rfl, (by show minCount ≤ m; omega), hgetD⟩
      · intro e he
        rcases List.mem_append.mp he with he2 | he2
        · exact hent e (List.mem_of_mem_take he2)
        · rw [List.eq_of_mem_replicate he2]
          exact emptyEntry_wf
      · intro i hi
        rw [hgetD i]
        exact hvis i hi

lemma dict_reserve_spec (d : Dict) (r : Nat) (a : Bool) (hWF : DictWF d) :
    ((Dictionary_ReserveElements d r a).1 = false →
      (Dictionary_ReserveElements d r a).2 = d) ∧
    ((Dictionary_ReserveElements d r a).1 = true →
      DictWF (Dictionary_ReserveElements d r a).2 ∧
      (Dictionary_ReserveElements d r a).2.elementCount = d.elementCount ∧
      (Dictionary_ReserveElements d r a).2.expansionRate = d.expansionRate ∧
      d.elementCount + r ≤ (Dictionary_ReserveElements d r a).2.maxElementCount ∧
      ∀ j, (Dictionary_ReserveElements d r a).2.entries.getD j emptyEntry
        = d.entries.getD j emptyEntry) := by
  unfold Dictionary_ReserveElements
  by_cases h1 : d.maxElementCount < d.elementCount + r
  · rw [if_pos h1]
    obtain ⟨hfail, hok⟩ := dict_setMinElements_spec d (d.maxElementCount + r) a hWF
    refine ⟨hfail, fun h => ?_⟩
    obtain ⟨hWF', hcnt, hrate, hmax, hget⟩ := hok h
    have hc0 : d.elementCount ≤ d.maxElementCount := hWF.2.1
    exact ⟨hWF', hcnt, hrate, (by omega), hget⟩
  · rw [if_neg h1]
    exact ⟨(fun h => by cases h), fun _ => ⟨hWF, rfl, rfl,
      (by show d.elementCount + r ≤ d.maxElementCount; omega), fun j => rfl⟩⟩

/-! ### stage lemmas for `Dictionary_Set` -/

lemma dictSetKeyInit_spec (e : DictEntry) (k : List Nat) (aKey : Bool)
    (hWF : EntryWF e) (hk : isBytes k) (e1 : DictEntry)
    (h : dictSetKeyInit e k aKey = some e1) :
    EntryWF e1 ∧ entryKey e1 = k ∧ e1.key ≠ none ∧ e1.keySize = k.length ∧
    e1.data = e.data ∧ e1.dataMaxSize = e.dataMaxSize ∧ e1.dataSize = e.dataSize := by
  obtain ⟨hkey, hdata, hdata0⟩ := hWF
  have hfreshKey : ∀ kb, kb = k ++ [0] →
      kb.length = k.length + 1 ∧ isBytes kb ∧ kb.getD k.length 1 = 0 := by
    intro kb hkb
    subst hkb
    refine ⟨by simp, ?_, ?_⟩
    · intro x hx
      rcases List.mem_append.mp hx with hx2 | hx2
      · exact hk x hx2
      · simp at hx2
        omega
    · rw [getD_append_right' _ _ _ _ (le_refl _)]
      simp
  have hfreshTake : (k ++ [0]).take k.length = k := by
    rw [List.take_append_of_le_length (le_refl _), List.take_length]
  unfold dictSetKeyInit at h
  cases hkcase : e.key with
  | none =>
    rw [hkcase] at h
    dsimp only at h
    cases aKey with
    | false => simp at h
    | true =>
      rw [if_pos rfl] at h
      obtain he1 := (Option.some.injEq _ _).mp h
      subst he1
      obtain ⟨hl, hb, ht⟩ := hfreshKey (k ++ [0]) rfl
      refine ⟨⟨?_, ?_, ?_⟩, ?_, by simp, rfl, rfl, rfl, rfl⟩
      · intro kb hkb
        simp only [Option.mem_def, Option.some.injEq] at hkb
        subst hkb
        exact ⟨hl, le_refl _, hb, ht⟩
      · intro db hdb
        exact hdata db hdb
      · exact hdata0
      · unfold entryKey
        simp only [Option.getD_some]
        exact hfreshTake
  | some kb =>
    rw [hkcase] at h
    dsimp only at h
    have hkb := hkey kb (by rw [hkcase]; rfl)
    by_cases hsz : e.keyMaxSize < k.length
    · rw [if_pos hsz] at h
      cases aKey with
      | false => simp at h
      | true =>
        rw [if_pos rfl] at h
        obtain he1 := (Option.some.injEq _ _).mp h
        subst he1
        obtain ⟨hl, hb, ht⟩ := hfreshKey (k ++ [0]) rfl
        refine ⟨⟨?_, ?_, ?_⟩, ?_, by simp, rfl, rfl, rfl, rfl⟩
        · intro kb' hkb'
          simp only [Option.mem_def, Option.some.injEq] at hkb'
          subst hkb'
          exact ⟨hl, le_refl _, hb, ht⟩
        · intro db hdb
          exact hdata db hdb
        · exact hdata0
        · unfold entryKey
          simp only [Option.getD_some]
          exact hfreshTake
    · rw [if_neg hsz] at h
      obtain he1 := (Option.some.injEq _ _).mp h
      subst he1
      have hlen2 : (k ++ [0] ++ kb.drop (k.length + 1)).length = e.keyMaxSize + 1 := by
        simp only [List.length_append, List.length_cons, List.length_nil,
          List.length_drop, hkb.1]
        omega
      refine ⟨⟨?_, ?_, ?_⟩, ?_, by simp, rfl, rfl, rfl, rfl⟩
      · intro kb' hkb'
        simp only [Option.mem_def, Option.some.injEq] at hkb'
        subst hkb'
        refine ⟨hlen2, by show k.length ≤ e.keyMaxSize; omega, ?_, ?_⟩
        · intro x hx
          rcases List.mem_append.mp hx with hx2 | hx2
          · rcases List.mem_append.mp hx2 with hx3 | hx3
            · exact hk x hx3
            · simp at hx3
              omega
          · exact hkb.2.2.1 x (List.mem_of_mem_drop hx2)
        · show (k ++ [0] ++ kb.drop (k.length + 1)).getD k.length 1 = 0
          rw [getD_append_left _ _ _ _ (by simp),
            getD_append_right' _ _ _ _ (le_refl _)]
          simp
      · intro db hdb
        exact hdata db hdb
      · exact hdata0
      · unfold entryKey
        simp only [Option.getD_some]
        rw [List.take_append_of_le_length (by simp), hfreshTake]

lemma dictSetDataInit_spec (e : DictEntry) (n : Nat) (aData : Bool)
    (hWF : EntryWF e) (e2 : DictEntry)
    (h : dictSetDataInit e n aData = some e2) :
    EntryWF e2 ∧ e2.key = e.key ∧ e2.keySize = e.keySize ∧
    e2.keyMaxSize = e.keyMaxSize ∧ e2.data ≠ none ∧
    (e.data = none → e2.dataMaxSize = n) := by
  obtain ⟨hkey, hdata, hdata0⟩ := hWF
  unfold dictSetDataInit at h
  cases hdcase : e.data with
  | none =>
    rw [hdcase] at h
    dsimp only at h
    cases aData with
    | false => simp at h
    | true =>
      rw [if_pos rfl] at h
      obtain he2 := (Option.some.injEq _ _).mp h
      subst he2
      refine ⟨⟨hkey, ?_, ?_⟩, rfl, rfl, rfl, by simp, fun _ => rfl⟩
      · intro db hdb
        simp only [Option.mem_def, Option.some.injEq] at hdb
        subst hdb
        constructor
        · simp
        · show e.dataSize ≤ n
          rw [hdata0 hdcase]
          omega
      · intro hcon
        cases hcon
  | some db0 =>
    rw [hdcase] at h
    dsimp only at h
    obtain he2 := (Option.some.injEq _ _).mp h
    subst he2
    exact ⟨⟨hkey, hdata, hdata0⟩, rfl, rfl, rfl, (by rw [hdcase]; simp),
      (fun hcon => by cases hcon)⟩

lemma dictDataWrite_spec (d : Dict) (idx : Nat) (src : DataSrc) (n : Nat)
    (db0 : List Nat) (hdb : (d.entries.getD idx emptyEntry).data = some db0)
    (hlen : db0.length = (d.entries.getD idx emptyEntry).dataMaxSize + 1)
    (hn : n ≤ (d.entries.getD idx emptyEntry).dataMaxSize)
    (hsrc : ∀ v, src = DataSrc.copy v → n ≤ v.length) :
    ∃ db e', dictDataWrite d idx src n
        = (some db, { d with entries := d.entries.set idx e' })
      ∧ e'.key = (d.entries.getD idx emptyEntry).key
      ∧ e'.keySize = (d.entries.getD idx emptyEntry).keySize
      ∧ e'.keyMaxSize = (d.entries.getD idx emptyEntry).keyMaxSize
      ∧ e'.dataMaxSize = (d.entries.getD idx emptyEntry).dataMaxSize
      ∧ e'.data = some db ∧ e'.dataSize = n
      ∧ db.length = (d.entries.getD idx emptyEntry).dataMaxSize + 1
      ∧ (src = DataSrc.fill0 → db.getD n 1 = 0)
      ∧ (∀ v, src = DataSrc.copy v → db.take n = v.take n ∧ db.getD n 1 = 0) := by
  unfold dictDataWrite
  dsimp only
  rw [hdb]
  cases src with
  | fill0 =>
    refine ⟨_, _, rfl, rfl, rfl, rfl, rfl, rfl, rfl, ?_, ?_, ?_⟩
    · simp only [Option.getD_some, List.length_append, List.length_replicate,
        List.length_drop]
      omega
    · intro _
      rw [getD_append_left _ _ _ _ (by simp only [List.length_replicate]; omega),
        getD_replicate', if_pos (by omega)]
    · intro v hv
      cases hv
  | noInit =>
    refine ⟨_, _, rfl, rfl, rfl, rfl, rfl, rfl, rfl, ?_, ?_, ?_⟩
    · simp only [Option.getD_some]
      exact hlen
    · intro hcon
      cases hcon
    · intro v hv
      cases hv
  | copy v =>
    have hvn : n ≤ v.length := hsrc v rfl
    have hvt : (v.take n).length = n := by
      simp only [List.length_take]
      omega
    refine ⟨_, _, rfl, rfl, rfl, rfl, rfl, rfl, rfl, ?_, ?_, ?_⟩
    · simp only [Option.getD_some, List.length_append, List.length_cons,
        List.length_nil, List.length_drop, hvt]
      omega
    · intro hcon
      cases hcon
    · intro v2 hv2
      obtain hvv := (DataSrc.copy.injEq _ _).mp hv2
      subst hvv
      constructor
      · rw [List.take_append_of_le_length (by rw [List.length_append, hvt]; simp),
          List.take_append_of_le_length (by rw [hvt]), List.take_take,
          Nat.min_self]
      · rw [getD_append_left _ _ _ _ (by rw [List.length_append, hvt]; simp),
          getD_append_right' _ _ _ _ (by rw [hvt])]
        simp [hvt]


lemma dictDataGrown_spec (e : DictEntry) (n : Nat) (db0 : List Nat)
    (hdb : e.data = some db0) (hlen : db0.length = e.dataMaxSize + 1)
    (hg : e.dataMaxSize ≤ n) :
    (dictDataGrown e n).key = e.key ∧ (dictDataGrown e n).keySize = e.keySize ∧
    (dictDataGrown e n).keyMaxSize = e.keyMaxSize ∧
    (dictDataGrown e n).dataMaxSize = n ∧
    ∃ dbG, (dictDataGrown e n).data = some dbG ∧ dbG.length = n + 1 := by
  unfold dictDataGrown
  refine ⟨rfl, rfl, rfl, rfl, _, rfl, ?_⟩
  rw [hdb]
  simp only [Option.getD_some, List.length_append, List.length_take,
    List.length_replicate]
  omega

lemma dictDataTail_spec (d : Dict) (idx : Nat) (src : DataSrc) (n : Nat)
    (aGrow : Bool) (hidx : idx < d.entries.length)
    (hE : EntryWF (d.entries.getD idx emptyEntry))
    (hd : (d.entries.getD idx emptyEntry).data ≠ none)
    (hsrc : ∀ v, src = DataSrc.copy v → n ≤ v.length) :
    ((dictDataTail d idx src n aGrow).1 = none →
      (dictDataTail d idx src n aGrow).2 = d) ∧
    (∀ db, (dictDataTail d idx src n aGrow).1 = some db →
      ∃ e', (dictDataTail d idx src n aGrow).2
          = { d with entries := d.entries.set idx e' }
        ∧ EntryWF e'
        ∧ e'.key = (d.entries.getD idx emptyEntry).key
        ∧ e'.keySize = (d.entries.getD idx emptyEntry).keySize
        ∧ e'.keyMaxSize = (d.entries.getD idx emptyEntry).keyMaxSize
        ∧ e'.data = some db ∧ e'.dataSize = n
        ∧ (src = DataSrc.fill0 → db.getD n 1 = 0)
        ∧ (∀ v, src = DataSrc.copy v → db.take n = v.take n ∧ db.getD n 1 = 0)) := by
  obtain ⟨hkey, hdata, hdata0⟩ := hE
  cases hdb : (d.entries.getD idx emptyEntry).data with
  | none => exact absurd hdb hd
  | some db0 =>
  have hdb0 := hdata db0 (by rw [hdb]; rfl)
  unfold dictDataTail
  by_cases hg : (d.entries.getD idx emptyEntry).dataMaxSize < n
  · rw [if_pos hg]
    cases aGrow with
    | false =>
      rw [if_neg (by simp)]
      exact ⟨fun _ => rfl, fun db hdbeq => by cases hdbeq⟩
    | true =>
      rw [if_pos rfl]
      dsimp only
      obtain ⟨hGk, hGks, hGkm, hGdm, dbG, hGdb, hGlen⟩ :=
        dictDataGrown_spec (d.entries.getD idx emptyEntry) n db0 hdb hdb0.1
          (by omega)
      generalize hEG : dictDataGrown (d.entries.getD idx emptyEntry) n = eG
        at hGk hGks hGkm hGdm hGdb ⊢
      have hgetG : ({ d with entries := d.entries.set idx eG } : Dict).entries.getD idx emptyEntry = eG := by
        show (d.entries.set idx eG).getD idx emptyEntry = eG
        rw [getD_set', if_pos ⟨rfl, hidx⟩]
      obtain ⟨db, e', heq, hk1, hk2, hk3, hk4, hk5, hk6, hk7, hk8, hk9⟩ :=
        dictDataWrite_spec { d with entries := d.entries.set idx eG } idx src n dbG
          (by rw [hgetG]; exact hGdb)
          (by rw [hgetG, hGdm]; exact hGlen)
          (by rw [hgetG, hGdm]) hsrc
      rw [heq]
      refine ⟨(fun hcon => by cases hcon), ?_⟩
      intro db2 hdb2
      obtain hdbeq := (Option.some.injEq _ _).mp hdb2
      subst hdbeq
      rw [hgetG] at hk1 hk2 hk3 hk4 hk7
      rw [hGdm] at hk7
      refine ⟨e', ?_, ?_, ?_, ?_, ?_, hk5, hk6, hk8, hk9⟩
      · show ({ d with entries := (d.entries.set idx eG).set idx e' } : Dict) = { d with entries := d.entries.set idx e' }
        rw [List.set_set]
      · refine ⟨?_, ?_, ?_⟩
        · intro kb hkb
          rw [hk1, hGk] at hkb
          rw [hk2, hGks, hk3, hGkm]
          exact hkey kb hkb
        · intro dbx hdbx
          rw [hk5] at hdbx
          simp only [Option.mem_def, Option.some.injEq] at hdbx
          subst hdbx
          rw [hk4, hGdm, hk6]
          exact ⟨hk7, by omega⟩
        · intro hcon
          rw [hk5] at hcon
          cases hcon
      · rw [hk1, hGk]
      · rw [hk2, hGks]
      · rw [hk3, hGkm]
  · rw [if_neg hg]
    obtain ⟨db, e', heq, hk1, hk2, hk3, hk4, hk5, hk6, hk7, hk8, hk9⟩ :=
      dictDataWrite_spec d idx src n db0 hdb hdb0.1 (by omega) hsrc
    rw [heq]
    refine ⟨(fun hcon => by cases hcon), ?_⟩
    intro db2 hdb2
    obtain hdbeq := (Option.some.injEq _ _).mp hdb2
    subst hdbeq
    refine ⟨e', rfl, ?_, hk1, hk2, hk3, hk5, hk6, hk8, hk9⟩
    refine ⟨?_, ?_, ?_⟩
    · intro kb hkb
      rw [hk1] at hkb
      rw [hk2, hk3]
      exact hkey kb hkb
    · intro dbx hdbx
      rw [hk5] at hdbx
      simp only [Option.mem_def, Option.some.injEq] at hdbx
      subst hdbx
      rw [hk4, hk6]
      exact ⟨hk7, by omega⟩
    · intro hcon
      rw [hk5] at hcon
      cases hcon

lemma dictInsertCont_spec (d2 : Dict) (p : Nat) (k : List Nat) (src : DataSrc)
    (n : Nat) (aKey aData aGrow : Bool)
    (hk : isBytes k)
    (hsrc : ∀ v, src = DataSrc.copy v → n ≤ v.length)
    (hlen2 : d2.entries.length = d2.maxElementCount)
    (hcnt2 : d2.elementCount + 1 ≤ d2.maxElementCount)
    (hrate2 : 1 ≤ d2.expansionRate)
    (hent2 : ∀ e ∈ d2.entries, EntryWF e)
    (hp : p ≤ d2.elementCount)
    (hvisL : ∀ j, j < p → ((d2.entries.getD j emptyEntry).key ≠ none ∧
      (d2.entries.getD j emptyEntry).data ≠ none) ∧ evAt d2 j < leVal k)
    (hvisR : ∀ j, p < j → j ≤ d2.elementCount →
      ((d2.entries.getD j emptyEntry).key ≠ none ∧
       (d2.entries.getD j emptyEntry).data ≠ none) ∧ leVal k < evAt d2 j)
    (hsorted2 : ∀ i j, i < j → j ≤ d2.elementCount → i ≠ p → j ≠ p →
      evAt d2 i < evAt d2 j) :
    ∀ db, (dictInsertCont d2 p k src n aKey aData aGrow).1 = some db →
      DictWF (dictInsertCont d2 p k src n aKey aData aGrow).2 ∧
      dictSortedVal (dictInsertCont d2 p k src n aKey aData aGrow).2 ∧
      (dictInsertCont d2 p k src n aKey aData aGrow).2.expansionRate
        = d2.expansionRate ∧
      (dictInsertCont d2 p k src n aKey aData aGrow).2.maxElementCount
        = d2.maxElementCount ∧
      (dictInsertCont d2 p k src n aKey aData aGrow).2.elementCount
        = d2.elementCount + 1 ∧
      p < (dictInsertCont d2 p k src n aKey aData aGrow).2.elementCount ∧
      evAt (dictInsertCont d2 p k src n aKey aData aGrow).2 p = leVal k ∧
      ((dictInsertCont d2 p k src n aKey aData aGrow).2.entries.getD p
        emptyEntry).data = some db ∧
      ((dictInsertCont d2 p k src n aKey aData aGrow).2.entries.getD p
        emptyEntry).dataSize = n ∧
      ((dictInsertCont d2 p k src n aKey aData aGrow).2.entries.getD p
        emptyEntry).key ≠ none ∧
      (src = DataSrc.fill0 → db.getD n 1 = 0) ∧
      (∀ v, src = DataSrc.copy v → db.take n = v.take n ∧ db.getD n 1 = 0) := by
  intro db hsucc
  have hplen : p < d2.entries.length := by omega
  have hEp : EntryWF (d2.entries.getD p emptyEntry) := by
    rcases getD_mem_or d2.entries p emptyEntry with h | h
    · exact hent2 _ h
    · rw [h]
      exact emptyEntry_wf
  unfold dictInsertCont at hsucc ⊢
  cases hkinit : dictSetKeyInit (d2.entries.getD p emptyEntry) k aKey with
  | none =>
    rw [hkinit] at hsucc
    cases hsucc
  | some e1 =>
    rw [hkinit] at hsucc
    dsimp only at hsucc ⊢
    obtain ⟨hE1, hek1, hkne1, hks1, hdata1, hdm1, hds1⟩ :=
      dictSetKeyInit_spec _ k aKey hEp hk e1 hkinit
    cases hdinit : dictSetDataInit e1 n aData with
    | none =>
      rw [hdinit] at hsucc
      cases hsucc
    | some e2 =>
      rw [hdinit] at hsucc
      dsimp only at hsucc ⊢
      obtain ⟨hE2, hkey2, hks2, hkm2, hdne2, hdm2⟩ :=
        dictSetDataInit_spec e1 n aData hE1 e2 hdinit
      have hD3getp : (d2.entries.set p e2).getD p emptyEntry = e2 := by
        rw [getD_set', if_pos ⟨rfl, hplen⟩]
      have hD3len : (d2.entries.set p e2).length = d2.entries.length :=
        List.length_set _ _ _
      obtain ⟨hfail, hok⟩ := dictDataTail_spec
        { d2 with entries := d2.entries.set p e2, elementCount := d2.elementCount + 1 } p src n aGrow
        (by show p < (d2.entries.set p e2).length; omega)
        (by show EntryWF ((d2.entries.set p e2).getD p emptyEntry)
            rw [hD3getp]; exact hE2)
        (by show ((d2.entries.set p e2).getD p emptyEntry).data ≠ none
            rw [hD3getp]; exact hdne2)
        hsrc
      obtain ⟨e4, heq, hE4, hek4, heks4, hekm4, hed4, heds4, hfill4, hcopy4⟩ :=
        hok db hsucc
      rw [heq]
      dsimp only at hek4 heks4 hekm4
      rw [hD3getp] at hek4 heks4 hekm4
      have hsets : ((d2.entries.set p e2).set p e4) = d2.entries.set p e4 :=
        List.set_set _ _ _ _
      dsimp only
      rw [hsets]
      have hgetF : ∀ j, (d2.entries.set p e4).getD j emptyEntry =
          if p = j then e4 else d2.entries.getD j emptyEntry := by
        intro j
        rw [getD_set']
        by_cases h : p = j
        · rw [if_pos ⟨h, hplen⟩, if_pos h]
        · rw [if_neg (by tauto), if_neg h]
      have hek4k : entryKey e4 = k := by
        unfold entryKey
        rw [hek4, hkey2, heks4, hks2]
        have : entryKey e1 = k := hek1
        unfold entryKey at this
        exact this
      have hevF : ∀ x, evAt { d2 with entries := d2.entries.set p e4, elementCount := d2.elementCount + 1 } x = if p = x then leVal k else evAt d2 x := by
        intro x
        unfold evAt
        show leVal (entryKey ((d2.entries.set p e4).getD x emptyEntry)) = _
        rw [hgetF x]
        by_cases h : p = x
        · rw [if_pos h, if_pos h, hek4k]
        · rw [if_neg h, if_neg h]
      refine ⟨⟨?_, ?_, ?_, ?_, ?_⟩, ?_, rfl, rfl, rfl, (by omega),
        ?_, ?_, ?_, ?_, hfill4, hcopy4⟩
      · show (d2.entries.set p e4).length = d2.maxElementCount
        rw [List.length_set]
        exact hlen2
      · show d2.elementCount + 1 ≤ d2.maxElementCount
        exact hcnt2
      · exact hrate2
      · intro e he
        rcases List.mem_or_eq_of_mem_set he with h | h
        · exact hent2 e h
        · rw [h]
          exact hE4
      · intro i hi
        show ((d2.entries.set p e4).getD i emptyEntry).key ≠ none ∧
          ((d2.entries.set p e4).getD i emptyEntry).data ≠ none
        rw [hgetF i]
        by_cases h : p = i
        · rw [if_pos h]
          refine ⟨?_, ?_⟩
          · rw [hek4, hkey2]
            exact hkne1
          · rw [hed4]
            simp
        · rw [if_neg h]
          rcases Nat.lt_or_ge i p with h2 | h2
          · exact (hvisL i h2).1
          · have hip : p < i := by omega
            have hic : i ≤ d2.elementCount := by
              dsimp only at hi
              omega
            exact (hvisR i hip hic).1
      · intro i j hij hj
        rw [hevF i, hevF j]
        dsimp only at hj
        by_cases hpi : p = i
        · rw [if_pos hpi, if_neg (by omega)]
          exact (hvisR j (by omega) (by omega)).2
        · rw [if_neg hpi]
          by_cases hpj : p = j
          · rw [if_pos hpj]
            exact (hvisL i (by omega)).2
          · rw [if_neg hpj]
            exact hsorted2 i j hij (by omega) (by omega) (by omega)
      · rw [hevF p, if_pos rfl]
      · show ((d2.entries.set p e4).getD p emptyEntry).data = some db
        rw [hgetF p, if_pos rfl]
        exact hed4
      · show ((d2.entries.set p e4).getD p emptyEntry).dataSize = n
        rw [hgetF p, if_pos rfl]
        exact heds4
      · show ((d2.entries.set p e4).getD p emptyEntry).key ≠ none
        rw [hgetF p, if_pos rfl, hek4, hkey2]
        exact hkne1

lemma getD_mem_of_lt {α : Type} (l : List α) (i : Nat) (dflt : α)
    (h : i < l.length) : l.getD i dflt ∈ l := by
  rw [List.getD_eq_getElem l dflt h]
  exact List.getElem_mem h

lemma rotateEntries_mem (l : List DictEntry) (p cnt : Nat) (hc : cnt < l.length) :
    ∀ e ∈ rotateEntries l p cnt, e ∈ l := by
  intro e he
  unfold rotateEntries at he
  simp only [List.mem_append, List.mem_singleton] at he
  rcases he with ((h | h) | h) | h
  · exact List.mem_of_mem_take h
  · rw [h]
    exact getD_mem_of_lt l cnt emptyEntry hc
  · exact List.mem_of_mem_drop (List.mem_of_mem_take h)
  · exact List.mem_of_mem_drop h

lemma deleteShift_mem (l : List DictEntry) (i cnt : Nat) (hi : i < cnt)
    (hc : cnt ≤ l.length) :
    ∀ e ∈ (l.take i ++ (l.drop (i + 1)).take (cnt - 1 - i)
      ++ [l.getD i emptyEntry] ++ l.drop cnt), e ∈ l := by
  intro e he
  simp only [List.mem_append, List.mem_singleton] at he
  rcases he with ((h | h) | h) | h
  · exact List.mem_of_mem_take h
  · exact List.mem_of_mem_drop (List.mem_of_mem_take h)
  · rw [h]
    exact getD_mem_of_lt l i emptyEntry (by omega)
  · exact List.mem_of_mem_drop h

lemma dict_set_spec (d : Dict) (k : List Nat) (src : DataSrc) (n : Nat)
    (aRes aKey aData aGrow : Bool)
    (hWF : DictWF d) (hs : dictSortedVal d) (hk : isBytes k)
    (hsrc : ∀ v, src = DataSrc.copy v → n ≤ v.length) :
    ∀ db, (Dictionary_Set d k src n aRes aKey aData aGrow).1 = some db →
      DictWF (Dictionary_Set d k src n aRes aKey aData aGrow).2 ∧
      dictSortedVal (Dictionary_Set d k src n aRes aKey aData aGrow).2 ∧
      (Dictionary_Set d k src n aRes aKey aData aGrow).2.expansionRate
        = d.expansionRate ∧
      ∃ p, p < (Dictionary_Set d k src n aRes aKey aData aGrow).2.elementCount ∧
        evAt (Dictionary_Set d k src n aRes aKey aData aGrow).2 p = leVal k ∧
        ((Dictionary_Set d k src n aRes aKey aData aGrow).2.entries.getD p
          emptyEntry).data = some db ∧
        ((Dictionary_Set d k src n aRes aKey aData aGrow).2.entries.getD p
          emptyEntry).dataSize = n ∧
        (src = DataSrc.fill0 → db.getD n 1 = 0) ∧
        (∀ v, src = DataSrc.copy v → db.take n = v.take n ∧ db.getD n 1 = 0) := by
  intro db hsucc
  unfold Dictionary_Set at hsucc ⊢
  dsimp only at hsucc ⊢
  by_cases hpk0 : (Dictionary_PickEntryIndex d k).1 = 0
  · rw [if_pos hpk0] at hsucc ⊢
    obtain ⟨hlt, hev⟩ := pick_found d k hk hWF hs hpk0
    have hidxlen : (Dictionary_PickEntryIndex d k).2 < d.entries.length := by
      have h1 := hWF.1
      have h2 := hWF.2.1
      omega
    obtain ⟨_, hok⟩ := dictDataTail_spec d (Dictionary_PickEntryIndex d k).2
      src n aGrow hidxlen (entryWF_getD hWF _)
      (hWF.2.2.2.2 _ hlt).2 hsrc
    obtain ⟨e', heq, hE', hkeq, hkseq, hkmeq, hdeq, hdseq, hfill, hcopy⟩ :=
      hok db hsucc
    rw [heq]
    have hgetF : ∀ j, (d.entries.set (Dictionary_PickEntryIndex d k).2 e').getD
        j emptyEntry = if (Dictionary_PickEntryIndex d k).2 = j then e'
          else d.entries.getD j emptyEntry := by
      intro j
      rw [getD_set']
      by_cases h : (Dictionary_PickEntryIndex d k).2 = j
      · rw [if_pos ⟨h, hidxlen⟩, if_pos h]
      · rw [if_neg (by tauto), if_neg h]
    have hkeyF : entryKey e'
        = entryKey (d.entries.getD (Dictionary_PickEntryIndex d k).2 emptyEntry) := by
      unfold entryKey
      rw [hkeq, hkseq]
    have hevF : ∀ x, evAt { d with entries := d.entries.set (Dictionary_PickEntryIndex d k).2 e' } x = evAt d x := by
      intro x
      unfold evAt
      show leVal (entryKey ((d.entries.set (Dictionary_PickEntryIndex d k).2
        e').getD x emptyEntry)) = _
      rw [hgetF x]
      by_cases h : (Dictionary_PickEntryIndex d k).2 = x
      · rw [if_pos h, hkeyF, h]
      · rw [if_neg h]
    refine ⟨⟨?_, hWF.2.1, hWF.2.2.1, ?_, ?_⟩, ?_, rfl,
      ⟨(Dictionary_PickEntryIndex d k).2, hlt, ?_, ?_, ?_, hfill, hcopy⟩⟩
    · show (d.entries.set (Dictionary_PickEntryIndex d k).2 e').length
        = d.maxElementCount
      rw [List.length_set]
      exact hWF.1
    · intro e he
      rcases List.mem_or_eq_of_mem_set he with h | h
      · exact hWF.2.2.2.1 e h
      · rw [h]
        exact hE'
    · intro i hi
      show ((d.entries.set (Dictionary_PickEntryIndex d k).2 e').getD i
          emptyEntry).key ≠ none ∧
        ((d.entries.set (Dictionary_PickEntryIndex d k).2 e').getD i
          emptyEntry).data ≠ none
      rw [hgetF i]
      by_cases h : (Dictionary_PickEntryIndex d k).2 = i
      · rw [if_pos h]
        refine ⟨?_, ?_⟩
        · rw [hkeq]
          exact (hWF.2.2.2.2 _ hlt).1
        · rw [hdeq]
          simp
      · rw [if_neg h]
        exact hWF.2.2.2.2 i hi
    · intro i j hij hj
      rw [hevF i, hevF j]
      exact hs i j hij hj
    · rw [hevF]
      exact hev
    · show ((d.entries.set (Dictionary_PickEntryIndex d k).2 e').getD
        (Dictionary_PickEntryIndex d k).2 emptyEntry).data = some db
      rw [hgetF, if_pos rfl]
      exact hdeq
    · show ((d.entries.set (Dictionary_PickEntryIndex d k).2 e').getD
        (Dictionary_PickEntryIndex d k).2 emptyEntry).dataSize = n
      rw [hgetF, if_pos rfl]
      exact hdseq
  · rw [if_neg hpk0] at hsucc ⊢
    rcases hres : Dictionary_ReserveElements d 1 aRes with ⟨ok, d1⟩
    rw [hres] at hsucc
    cases ok with
    | false =>
      dsimp only at hsucc
      simp at hsucc
    | true =>
      dsimp only at hsucc ⊢
      obtain ⟨_, hok1⟩ := dict_reserve_spec d 1 aRes hWF
      obtain ⟨hWF1, hcnt1, hrate1, hmax1, hget1⟩ := hok1 (by rw [hres])
      rw [hres] at hWF1 hcnt1 hrate1 hmax1 hget1
      dsimp only at hWF1 hcnt1 hrate1 hmax1 hget1
      obtain ⟨hple, hL, hR⟩ := pick_not_found d k hk hWF hs hpk0
      have hidx : (if (Dictionary_PickEntryIndex d k).1 = 1 then
          (Dictionary_PickEntryIndex d k).2 + 1
          else (Dictionary_PickEntryIndex d k).2) = insertPos d k := rfl
      rw [hidx] at hsucc ⊢
      have hClen : d1.elementCount < d1.entries.length := by
        have h1 := hWF1.1
        omega
      by_cases hrot : d1.elementCount - insertPos d k ≠ 0
      · rw [if_pos hrot] at hsucc ⊢
        have hPC : insertPos d k < d1.elementCount := by omega
        have hgR : ∀ j, (rotateEntries d1.entries (insertPos d k)
            d1.elementCount).getD j emptyEntry =
            if j < insertPos d k then d.entries.getD j emptyEntry
            else if j = insertPos d k then d1.entries.getD d1.elementCount emptyEntry
            else if j ≤ d1.elementCount then d.entries.getD (j - 1) emptyEntry
            else d.entries.getD j emptyEntry := by
          intro j
          rw [rotateEntries_getD d1.entries (insertPos d k) d1.elementCount j
            (by omega) hClen, hget1 j, hget1 (j - 1)]
        obtain hcont := dictInsertCont_spec
          { d1 with entries := rotateEntries d1.entries (insertPos d k) d1.elementCount }
          (insertPos d k) k src n aKey aData aGrow hk hsrc
          (by show (rotateEntries d1.entries (insertPos d k)
                d1.elementCount).length = d1.maxElementCount
              rw [rotateEntries_length d1.entries (insertPos d k) d1.elementCount
                (by omega) hClen]
              exact hWF1.1)
          (by show d1.elementCount + 1 ≤ d1.maxElementCount
              have h1 := hWF1.1
              omega)
          hWF1.2.2.1
          (by intro e he
              exact hWF1.2.2.2.1 e
                (rotateEntries_mem d1.entries (insertPos d k) d1.elementCount
                  hClen e he))
          (by show insertPos d k ≤ d1.elementCount; omega)
          (by intro j hj
              have hjd : j < d.elementCount := by omega
              refine ⟨?_, ?_⟩
              · show ((rotateEntries d1.entries (insertPos d k)
                    d1.elementCount).getD j emptyEntry).key ≠ none ∧
                  ((rotateEntries d1.entries (insertPos d k)
                    d1.elementCount).getD j emptyEntry).data ≠ none
                rw [hgR j, if_pos hj]
                exact hWF.2.2.2.2 j hjd
              · show leVal (entryKey ((rotateEntries d1.entries (insertPos d k)
                    d1.elementCount).getD j emptyEntry)) < leVal k
                rw [hgR j, if_pos hj]
                exact hL j hj)
          (by intro j hj1 hj2
              dsimp only at hj2
              have hj2' : j ≤ d.elementCount := by omega
              have hjd : j - 1 < d.elementCount := by omega
              refine ⟨?_, ?_⟩
              · show ((rotateEntries d1.entries (insertPos d k)
                    d1.elementCount).getD j emptyEntry).key ≠ none ∧
                  ((rotateEntries d1.entries (insertPos d k)
                    d1.elementCount).getD j emptyEntry).data ≠ none
                rw [hgR j, if_neg (by omega), if_neg (by omega),
                  if_pos (by omega)]
                exact hWF.2.2.2.2 (j - 1) hjd
              · show leVal k < leVal (entryKey ((rotateEntries d1.entries
                    (insertPos d k) d1.elementCount).getD j emptyEntry))
                rw [hgR j, if_neg (by omega), if_neg (by omega),
                  if_pos (by omega)]
                exact hR (j - 1) (by omega) hjd)
          (by intro i j hij hj hip hjp
              dsimp only at hj
              show leVal (entryKey ((rotateEntries d1.entries (insertPos d k)
                  d1.elementCount).getD i emptyEntry)) < leVal (entryKey
                  ((rotateEntries d1.entries (insertPos d k)
                    d1.elementCount).getD j emptyEntry))
              rw [hgR i, hgR j]
              by_cases hi1 : i < insertPos d k
              · rw [if_pos hi1]
                by_cases hj1 : j < insertPos d k
                · rw [if_pos hj1]
                  exact hs i j hij (by omega)
                · rw [if_neg hj1, if_neg hjp, if_pos hj]
                  exact hs i (j - 1) (by omega) (by omega)
              · rw [if_neg hi1, if_neg hip, if_pos (by omega)]
                rw [if_neg (by omega), if_neg hjp, if_pos hj]
                exact hs (i - 1) (j - 1) (by omega) (by omega))
        obtain ⟨hWFr, hsortr, hrater, hmaxr, hcountr, hpltr, hevr, hdatar,
          hdsr, hknr, hfillr, hcopyr⟩ := hcont db hsucc
        exact ⟨hWFr, hsortr, (by rw [hrater]; exact hrate1),
          ⟨insertPos d k, hpltr, hevr, hdatar, hdsr, hfillr, hcopyr⟩⟩
      · rw [if_neg hrot] at hsucc ⊢
        have hPC : insertPos d k = d.elementCount := by omega
        obtain hcont := dictInsertCont_spec d1 (insertPos d k) k src n
          aKey aData aGrow hk hsrc hWF1.1
          (by have h1 := hWF1.1; omega)
          hWF1.2.2.1 hWF1.2.2.2.1 (by omega)
          (by intro j hj
              have hjd : j < d.elementCount := by omega
              rw [hget1 j]
              refine ⟨hWF.2.2.2.2 j hjd, ?_⟩
              · show leVal (entryKey (d1.entries.getD j emptyEntry)) < leVal k
                rw [hget1 j]
                exact hL j hj)
          (by intro j hj1 hj2
              omega)
          (by intro i j hij hj hip hjp
              show leVal (entryKey (d1.entries.getD i emptyEntry))
                < leVal (entryKey (d1.entries.getD j emptyEntry))
              rw [hget1 i, hget1 j]
              exact hs i j hij (by omega))
        obtain ⟨hWFr, hsortr, hrater, hmaxr, hcountr, hpltr, hevr, hdatar,
          hdsr, hknr, hfillr, hcopyr⟩ := hcont db hsucc
        exact ⟨hWFr, hsortr, (by rw [hrater]; exact hrate1),
          ⟨insertPos d k, hpltr, hevr, hdatar, hdsr, hfillr, hcopyr⟩⟩

lemma dict_delete_spec (d : Dict) (k : List Nat) (hWF : DictWF d)
    (hs : dictSortedVal d) :
    ((Dictionary_DeleteKey d k).1 = false → (Dictionary_DeleteKey d k).2 = d) ∧
    DictWF (Dictionary_DeleteKey d k).2 ∧
    dictSortedVal (Dictionary_DeleteKey d k).2 ∧
    (Dictionary_DeleteKey d k).2.expansionRate = d.expansionRate ∧
    ((Dictionary_DeleteKey d k).1 = true →
      (Dictionary_DeleteKey d k).2.elementCount = d.elementCount - 1) := by
  unfold Dictionary_DeleteKey
  cases hfind : dictFindExact d k with
  | none =>
    exact ⟨fun _ => rfl, hWF, hs, rfl, (fun h => by cases h)⟩
  | some i =>
    have hi : i < d.elementCount := by
      have hmem := List.mem_of_find?_eq_some hfind
      exact List.mem_range.1 hmem
    have hc : d.elementCount ≤ d.entries.length := by
      have h1 := hWF.1
      have h2 := hWF.2.1
      omega
    dsimp only
    by_cases hsh : d.elementCount - 1 - i ≠ 0
    · rw [if_pos hsh]
      have hgD := fun j => deleteShift_getD d.entries i d.elementCount j hi hc
      refine ⟨(fun h => by cases h), ⟨?_, ?_, hWF.2.2.1, ?_, ?_⟩, ?_, rfl,
        fun _ => rfl⟩
      · show (d.entries.take i ++ (d.entries.drop (i + 1)).take
          (d.elementCount - 1 - i) ++ [d.entries.getD i emptyEntry]
          ++ d.entries.drop d.elementCount).length = d.maxElementCount
        rw [deleteShift_length d.entries i d.elementCount hi hc]
        exact hWF.1
      · show d.elementCount - 1 ≤ d.maxElementCount
        have h2 := hWF.2.1
        omega
      · intro e he
        exact hWF.2.2.2.1 e
          (deleteShift_mem d.entries i d.elementCount hi hc e he)
      · intro j hj
        show ((d.entries.take i ++ (d.entries.drop (i + 1)).take
            (d.elementCount - 1 - i) ++ [d.entries.getD i emptyEntry]
            ++ d.entries.drop d.elementCount).getD j emptyEntry).key ≠ none ∧
          ((d.entries.take i ++ (d.entries.drop (i + 1)).take
            (d.elementCount - 1 - i) ++ [d.entries.getD i emptyEntry]
            ++ d.entries.drop d.elementCount).getD j emptyEntry).data ≠ none
        dsimp only at hj
        rw [hgD j]
        by_cases h1 : j < i
        · rw [if_pos h1]
          exact hWF.2.2.2.2 j (by omega)
        · rw [if_neg h1, if_pos (by omega)]
          exact hWF.2.2.2.2 (j + 1) (by omega)
      · intro x y hxy hy
        dsimp only at hy
        show leVal (entryKey ((d.entries.take i ++ (d.entries.drop (i + 1)).take
            (d.elementCount - 1 - i) ++ [d.entries.getD i emptyEntry]
            ++ d.entries.drop d.elementCount).getD x emptyEntry)) <
          leVal (entryKey ((d.entries.take i ++ (d.entries.drop (i + 1)).take
            (d.elementCount - 1 - i) ++ [d.entries.getD i emptyEntry]
            ++ d.entries.drop d.elementCount).getD y emptyEntry))
        rw [hgD x, hgD y]
        by_cases hx1 : x < i
        · rw [if_pos hx1]
          by_cases hy1 : y < i
          · rw [if_pos hy1]
            exact hs x y hxy (by omega)
          · rw [if_neg hy1, if_pos (by omega)]
            exact hs x (y + 1) (by omega) (by omega)
        · rw [if_neg hx1, if_pos (by omega), if_neg (by omega),
            if_pos (by omega)]
          exact hs (x + 1) (y + 1) (by omega) (by omega)
    · rw [if_neg hsh]
      refine ⟨(fun h => by cases h), ⟨hWF.1, ?_, hWF.2.2.1, hWF.2.2.2.1, ?_⟩,
        ?_, rfl, fun _ => rfl⟩
      · show d.elementCount - 1 ≤ d.maxElementCount
        have h2 := hWF.2.1
        omega
      · intro j hj
        dsimp only at hj
        exact hWF.2.2.2.2 j (by omega)
      · intro x y hxy hy
        dsimp only at hy
        exact hs x y hxy (by omega)

lemma dict_init_wf (m : Nat) (q : ℚ) (hq : 0 ≤ q) :
    DictWF (Dictionary_InitWithMinSize m q) ∧
    dictSortedVal (Dictionary_InitWithMinSize m q) := by
  unfold Dictionary_InitWithMinSize
  refine ⟨⟨?_, ?_, ?_, ?_, ?_⟩, ?_⟩
  · exact List.length_replicate m emptyEntry
  · exact Nat.zero_le m
  · exact le_add_of_nonneg_left hq
  · intro e he
    rw [List.eq_of_mem_replicate he]
    exact emptyEntry_wf
  · intro i hi
    have h0 : i < 0 := hi
    exact absurd h0 (Nat.not_lt_zero i)
  · intro i j hij hj
    have h0 : j < 0 := hj
    exact absurd h0 (Nat.not_lt_zero j)

/-- C6: a successful `Dictionary_Set(k, v)` followed by `Dictionary_Get(k)`
returns the stored data block with reported size `v.length` whose first
`v.length` bytes equal `v` — for any well-formed sorted dictionary, any
byte key, and any value `v`, including the zero-length one. -/
theorem set_get_roundtrip (d : Dict) (k v : List Nat)
    (aRes aKey aData aGrow : Bool) (hWF : DictWF d) (hs : dictSortedVal d)
    (hk : isBytes k) :
    ∀ db, (Dictionary_Set d k (DataSrc.copy v) v.length aRes aKey aData aGrow).1
        = some db →
      Dictionary_Get
          (Dictionary_Set d k (DataSrc.copy v) v.length aRes aKey aData aGrow).2 k
        = some (db, v.length) ∧ db.take v.length = v := by
  intro db hsucc
  obtain ⟨hWFr, hsortr, hrater, p, hplt, hevr, hdatar, hdsr, hfillr, hcopyr⟩ :=
    dict_set_spec d k (DataSrc.copy v) v.length aRes aKey aData aGrow hWF hs hk
      (fun v' hv' => by cases hv'; exact le_refl _) db hsucc
  have h0 : (Dictionary_PickEntryIndex
      (Dictionary_Set d k (DataSrc.copy v) v.length aRes aKey aData aGrow).2 k).1
      = 0 :=
    pick_finds _ k hk hWFr hsortr p hplt hevr
  obtain ⟨hlt2, hev2⟩ := pick_found _ k hk hWFr hsortr h0
  have hpeq : (Dictionary_PickEntryIndex
      (Dictionary_Set d k (DataSrc.copy v) v.length aRes aKey aData aGrow).2 k).2
      = p :=
    sortedVal_unique hsortr _ p hlt2 hplt (by rw [hev2, hevr])
  refine ⟨?_, ?_⟩
  · unfold Dictionary_Get Dictionary_Get_Entry
    rw [if_pos h0]
    dsimp only
    rw [hpeq, hdatar, hdsr]
    rfl
  · obtain ⟨htake, _⟩ := hcopyr v rfl
    rw [htake, List.take_length]

/-- Witness for C6: on the two-slot initial dictionary, storing value `[9]`
under key `[5]` and reading it back returns the stored block `[9, 0]` with
size `1` and first byte `9`. -/
theorem set_get_roundtrip_witness :
    Dictionary_Get
        (Dictionary_Set (Dictionary_InitWithMinSize 2 0) [5] (DataSrc.copy [9])
          1 true true true true).2 [5] = some ([9, 0], 1) ∧
      ([9, 0] : List Nat).take 1 = [9] :=
  set_get_roundtrip (Dictionary_InitWithMinSize 2 0) [5] [9] true true true true
    (dict_init_wf 2 0 (le_refl 0)).1 (dict_init_wf 2 0 (le_refl 0)).2
    (by decide) [9, 0] (by decide)

/-- C10: after a successful `Dictionary_Set`, the stored entry's key block
carries a `0` byte at offset `keySize`, and — whenever the data source is a
real byte block or the zero-fill sentinel (not the no-init sentinel) — the
returned data block carries a `0` byte at offset `dataSize`; both
terminators sit outside the reported sizes. -/
theorem set_writes_terminators (d : Dict) (k : List Nat) (src : DataSrc)
    (n : Nat) (aRes aKey aData aGrow : Bool) (hWF : DictWF d)
    (hs : dictSortedVal d) (hk : isBytes k)
    (hsrc : ∀ v, src = DataSrc.copy v → n ≤ v.length) :
    ∀ db, (Dictionary_Set d k src n aRes aKey aData aGrow).1 = some db →
      ∃ p kb, p < (Dictionary_Set d k src n aRes aKey aData aGrow).2.elementCount ∧
        ((Dictionary_Set d k src n aRes aKey aData aGrow).2.entries.getD p
          emptyEntry).key = some kb ∧
        kb.getD ((Dictionary_Set d k src n aRes aKey aData aGrow).2.entries.getD p
          emptyEntry).keySize 1 = 0 ∧
        ((Dictionary_Set d k src n aRes aKey aData aGrow).2.entries.getD p
          emptyEntry).keySize <
          kb.length ∧
        ((Dictionary_Set d k src n aRes aKey aData aGrow).2.entries.getD p
          emptyEntry).data = some db ∧
        (src ≠ DataSrc.noInit →
          db.getD ((Dictionary_Set d k src n aRes aKey aData aGrow).2.entries.getD p
            emptyEntry).dataSize 1 = 0) := by
  intro db hsucc
  obtain ⟨hWFr, hsortr, hrater, p, hplt, hevr, hdatar, hdsr, hfillr, hcopyr⟩ :=
    dict_set_spec d k src n aRes aKey aData aGrow hWF hs hk hsrc db hsucc
  have hE := entryWF_getD hWFr p
  have hkne := (hWFr.2.2.2.2 p hplt).1
  cases hkb : ((Dictionary_Set d k src n aRes aKey aData aGrow).2.entries.getD p
      emptyEntry).key with
  | none => exact absurd hkb hkne
  | some kb =>
    obtain ⟨hlen, hszle, _, hterm⟩ := hE.1 kb (by rw [hkb]; rfl)
    refine ⟨p, kb, hplt, hkb, hterm, (by omega), hdatar, ?_⟩
    intro hni
    rw [hdsr]
    cases src with
    | fill0 => exact hfillr rfl
    | noInit => exact absurd rfl hni
    | copy v => exact (hcopyr v rfl).2

/-- Witness for C10: storing `[3, 4]` under key `[7]` in the two-slot
initial dictionary puts the terminated key block `[7, 0]` (zero at offset
`keySize = 1`) and returns the data block `[3, 4, 0]` (zero at offset
`dataSize = 2`). -/
theorem set_writes_terminators_witness :
    ∃ p kb,
      p < (Dictionary_Set (Dictionary_InitWithMinSize 2 0) [7]
        (DataSrc.copy [3, 4]) 2 true true true true).2.elementCount ∧
      ((Dictionary_Set (Dictionary_InitWithMinSize 2 0) [7]
        (DataSrc.copy [3, 4]) 2 true true true true).2.entries.getD p
        emptyEntry).key = some kb ∧
      kb.getD ((Dictionary_Set (Dictionary_InitWithMinSize 2 0) [7]
        (DataSrc.copy [3, 4]) 2 true true true true).2.entries.getD p
        emptyEntry).keySize 1 = 0 ∧
      ((Dictionary_Set (Dictionary_InitWithMinSize 2 0) [7]
        (DataSrc.copy [3, 4]) 2 true true true true).2.entries.getD p
        emptyEntry).keySize < kb.length ∧
      ((Dictionary_Set (Dictionary_InitWithMinSize 2 0) [7]
        (DataSrc.copy [3, 4]) 2 true true true true).2.entries.getD p
        emptyEntry).data = some [3, 4, 0] ∧
      (DataSrc.copy [3, 4] ≠ DataSrc.noInit →
        ([3, 4, 0] : List Nat).getD ((Dictionary_Set
          (Dictionary_InitWithMinSize 2 0) [7] (DataSrc.copy [3, 4]) 2
          true true true true).2.entries.getD p emptyEntry).dataSize 1 = 0) :=
  set_writes_terminators (Dictionary_InitWithMinSize 2 0) [7]
    (DataSrc.copy [3, 4]) 2 true true true true
    (dict_init_wf 2 0 (le_refl 0)).1 (dict_init_wf 2 0 (le_refl 0)).2
    (by decide) (fun v hv => by cases hv; exact le_refl _)
    [3, 4, 0] (by decide)

/-- A public mutating dictionary call: `Dictionary_Set` (with its allocation
outcomes) or `Dictionary_DeleteKey`. -/
inductive DictOp where
  | setOp (k : List Nat) (src : DataSrc) (n : Nat) (aRes aKey aData aGrow : Bool)
  | delOp (k : List Nat)

def runDictOp (d : Dict) (op : DictOp) : Dict :=
  match op with
  | DictOp.setOp k src n aRes aKey aData aGrow =>
    (Dictionary_Set d k src n aRes aKey aData aGrow).2
  | DictOp.delOp k => (Dictionary_DeleteKey d k).2

def runDictOps (d : Dict) (ops : List DictOp) : Dict :=
  ops.foldl runDictOp d

/-- The call's arguments are legal: byte-valued key, and a copied data
block at least as long as the announced data size. -/
def dictOpSafe (op : DictOp) : Prop :=
  match op with
  | DictOp.setOp k src n _ _ _ _ =>
    isBytes k ∧ ∀ v, src = DataSrc.copy v → n ≤ v.length
  | DictOp.delOp _ => True

/-- The call did not report failure: `Dictionary_Set` returned a non-NULL
data pointer (a delete may freely report "key not found"). -/
def dictOpFine (d : Dict) (op : DictOp) : Prop :=
  match op with
  | DictOp.setOp k src n aRes aKey aData aGrow =>
    (Dictionary_Set d k src n aRes aKey aData aGrow).1 ≠ none
  | DictOp.delOp _ => True

def dictRunOk : Dict → List DictOp → Prop
  | _, [] => True
  | d, op :: rest => dictOpFine d op ∧ dictRunOk (runDictOp d op) rest

/-- The observable sorted-and-duplicate-free invariant, phrased with the
magnitude comparator exactly as the spec does. -/
def dictCmpInv (d : Dict) : Prop :=
  (∀ i, i + 1 < d.elementCount →
    CompareMemoryBlocks (entryKey (d.entries.getD i emptyEntry))
      (entryKey (d.entries.getD (i + 1) emptyEntry)) < 0) ∧
  (∀ i j, i < j → j < d.elementCount →
    CompareMemoryBlocks (entryKey (d.entries.getD i emptyEntry))
      (entryKey (d.entries.getD j emptyEntry)) ≠ 0)

lemma wf_cmpInv (d : Dict) (hWF : DictWF d) (hs : dictSortedVal d) :
    dictCmpInv d := by
  refine ⟨?_, ?_⟩
  · intro i hi
    rw [cmp_neg_iff (entryKey_isBytes_of_wf (entryWF_getD hWF i))
      (entryKey_isBytes_of_wf (entryWF_getD hWF (i + 1)))]
    exact hs i (i + 1) (by omega) hi
  · intro i j hij hj h0
    rw [cmp_zero_iff (entryKey_isBytes_of_wf (entryWF_getD hWF i))
      (entryKey_isBytes_of_wf (entryWF_getD hWF j))] at h0
    have h1 : evAt d i = evAt d j := h0
    have := hs i j hij hj
    omega

lemma dictStep_wf (d : Dict) (op : DictOp) (hWF : DictWF d)
    (hs : dictSortedVal d) (hsafe : dictOpSafe op) (hfine : dictOpFine d op) :
    DictWF (runDictOp d op) ∧ dictSortedVal (runDictOp d op) := by
  cases op with
  | delOp k =>
    obtain ⟨_, hWF', hs', _, _⟩ := dict_delete_spec d k hWF hs
    exact ⟨hWF', hs'⟩
  | setOp k src n aRes aKey aData aGrow =>
    obtain ⟨hkB, hsrc⟩ := hsafe
    cases hres : (Dictionary_Set d k src n aRes aKey aData aGrow).1 with
    | none => exact absurd hres hfine
    | some db =>
      obtain ⟨hWF', hs', _, _⟩ :=
        dict_set_spec d k src n aRes aKey aData aGrow hWF hs hkB hsrc db hres
      exact ⟨hWF', hs'⟩

lemma dictRun_wf (ops : List DictOp) : ∀ d, DictWF d → dictSortedVal d →
    (∀ op ∈ ops, dictOpSafe op) → dictRunOk d ops →
    DictWF (runDictOps d ops) ∧ dictSortedVal (runDictOps d ops) := by
  induction ops with
  | nil =>
    intro d hWF hs _ _
    exact ⟨hWF, hs⟩
  | cons op rest ih =>
    intro d hWF hs hsafe hok
    obtain ⟨hfine, hok'⟩ := hok
    obtain ⟨hWF1, hs1⟩ := dictStep_wf d op hWF hs (hsafe op (by simp)) hfine
    exact ih (runDictOp d op) hWF1 hs1 (fun o ho => hsafe o (by simp [ho])) hok'

lemma dictRunOk_take (ops : List DictOp) : ∀ d i, dictRunOk d ops →
    dictRunOk d (ops.take i) := by
  induction ops with
  | nil =>
    intro d i _
    cases i <;> exact trivial
  | cons op rest ih =>
    intro d i hok
    cases i with
    | zero => exact trivial
    | succ m => exact ⟨hok.1, ih (runDictOp d op) m hok.2⟩

/-- C1 (corrected): starting from any well-formed sorted dictionary, after
every prefix of a sequence of `Dictionary_DeleteKey` calls and *successful*
`Dictionary_Set` calls, adjacent valid entries compare strictly below each
other under the magnitude comparator and no two valid entries compare
equal. (The original claim, over arbitrary call sequences including failed
`Dictionary_Set` calls, is refuted by the counterexample: a `Set` whose
key allocation fails after the spare-slot rotation leaves the visible
region unsorted.) -/
theorem dict_comparator_invariant (d : Dict) (ops : List DictOp)
    (hWF : DictWF d) (hs : dictSortedVal d)
    (hsafe : ∀ op ∈ ops, dictOpSafe op) (hok : dictRunOk d ops) :
    ∀ i, dictCmpInv (runDictOps d (ops.take i)) := by
  intro i
  obtain ⟨hWF', hs'⟩ := dictRun_wf (ops.take i) d hWF hs
    (fun op hop => hsafe op (List.mem_of_mem_take hop))
    (dictRunOk_take ops d i hok)
  exact wf_cmpInv _ hWF' hs'

/-- Witness for C1: a successful `Set` of key `[5]` followed by deleting
`[5]` keeps the comparator invariant on the four-slot initial dictionary. -/
theorem dict_comparator_invariant_witness :
    dictCmpInv (runDictOps (Dictionary_InitWithMinSize 4 0)
      [DictOp.setOp [5] (DataSrc.copy [1]) 1 true true true true,
       DictOp.delOp [5]]) :=
  dict_comparator_invariant (Dictionary_InitWithMinSize 4 0)
    [DictOp.setOp [5] (DataSrc.copy [1]) 1 true true true true,
     DictOp.delOp [5]]
    (dict_init_wf 4 0 (le_refl 0)).1 (dict_init_wf 4 0 (le_refl 0)).2
    (by intro op hop
        rcases List.mem_cons.1 hop with h | h
        · rw [h]
          exact ⟨by decide, fun v hv => by cases hv; exact le_refl _⟩
        · rw [List.mem_singleton.1 h]
          exact trivial)
    ⟨(by decide : (Dictionary_Set (Dictionary_InitWithMinSize 4 0) [5]
      (DataSrc.copy [1]) 1 true true true true).1 ≠ none), trivial, trivial⟩ 2

/-- Counterexample to C1 as stated: on the three-slot dictionary holding
keys `[5]` and `[7]`, a `Dictionary_Set` of the middle key `[6]` whose key
allocation fails (after the spare entry has been rotated into slot 1)
leaves two valid entries whose keys do *not* compare strictly below each
other — the call sequence breaks the adjacent-order invariant. -/
theorem dict_comparator_invariant_cex :
    (runDictOps (Dictionary_InitWithMinSize 3 0)
      [DictOp.setOp [5] (DataSrc.copy [1]) 1 true true true true,
       DictOp.setOp [7] (DataSrc.copy [1]) 1 true true true true,
       DictOp.setOp [6] (DataSrc.copy [1]) 1 true false true true]).elementCount
      = 2 ∧
    ¬ (CompareMemoryBlocks
        (entryKey ((runDictOps (Dictionary_InitWithMinSize 3 0)
          [DictOp.setOp [5] (DataSrc.copy [1]) 1 true true true true,
           DictOp.setOp [7] (DataSrc.copy [1]) 1 true true true true,
           DictOp.setOp [6] (DataSrc.copy [1]) 1 true false true true]).entries.getD
          0 emptyEntry))
        (entryKey ((runDictOps (Dictionary_InitWithMinSize 3 0)
          [DictOp.setOp [5] (DataSrc.copy [1]) 1 true true true true,
           DictOp.setOp [7] (DataSrc.copy [1]) 1 true true true true,
           DictOp.setOp [6] (DataSrc.copy [1]) 1 true false true true]).entries.getD
          1 emptyEntry)) < 0) := by
  refine ⟨?_, ?_⟩ <;> decide

lemma setMinSize_fail (b : BinaryBuilder) (m : Nat) (a : Bool)
    (h : (BinaryBuilder_SetMinSize b m a).1 = false) :
    (BinaryBuilder_SetMinSize b m a).2 = b := by
  unfold BinaryBuilder_SetMinSize at h ⊢
  by_cases h1 : m ≤ b.capacity
  · rw [if_pos h1]
  · rw [if_neg h1] at h ⊢
    by_cases h2 : b.expansionRate ≤ 1
    · rw [if_pos h2]
    · rw [if_neg h2] at h ⊢
      dsimp only at h ⊢
      cases a with
      | true => cases h
      | false => rfl

lemma reserveSize_fail (b : BinaryBuilder) (res : Nat) (a : Bool)
    (h : (BinaryBuilder_ReserveSize b res a).1 = none) :
    (BinaryBuilder_ReserveSize b res a).2 = b := by
  unfold BinaryBuilder_ReserveSize at h ⊢
  by_cases h1 : b.capacity < b.usedEnd + res
  · rw [if_pos h1] at h ⊢
    by_cases h2 : b.expansionRate ≤ 1
    · rw [if_pos h2]
    · rw [if_neg h2] at h ⊢
      rcases hm : BinaryBuilder_SetMinSize b (b.capacity + res) a with ⟨ok, b'⟩
      rw [hm] at h
      cases ok with
      | true => simp at h
      | false =>
        show b' = b
        have h3 := setMinSize_fail b (b.capacity + res) a (by rw [hm])
        rw [hm] at h3
        exact h3
  · rw [if_neg h1] at h
    simp at h

lemma setBytes_fail (b : BinaryBuilder) (src : BBSrc) (len : Nat) (a : Bool)
    (h : (BinaryBuilder_SetBytes b src len a).1 = false) :
    (BinaryBuilder_SetBytes b src len a).2 = b := by
  unfold BinaryBuilder_SetBytes at h ⊢
  by_cases h0 : len = 0
  · rw [if_pos h0]
  · rw [if_neg h0] at h ⊢
    rcases hr : BinaryBuilder_ReserveSize b len a with ⟨r, b'⟩
    rw [hr] at h
    cases r with
    | some off => simp at h
    | none =>
      show b' = b
      have h3 := reserveSize_fail b len a (by rw [hr])
      rw [hr] at h3
      exact h3

lemma insertBytes_fail (b : BinaryBuilder) (src : BBSrc) (len : Nat) (a : Bool)
    (h : (BinaryBuilder_InsertBytes b src len a).1 = false) :
    (BinaryBuilder_InsertBytes b src len a).2 = b := by
  unfold BinaryBuilder_InsertBytes at h ⊢
  by_cases h1 : b.usedEnd ≤ b.writeOffset
  · rw [if_pos h1] at h ⊢
    exact setBytes_fail b src len a h
  · rw [if_neg h1] at h ⊢
    by_cases h0 : len = 0
    · rw [if_pos h0]
    · rw [if_neg h0] at h ⊢
      cases src with
      | ptr bytes =>
        dsimp only at h ⊢
        rcases hr : BinaryBuilder_ReserveSize b (len * 2) a with ⟨r, b'⟩
        rw [hr] at h
        cases r with
        | some off => simp at h
        | none =>
          show b' = b
          have h3 := reserveSize_fail b (len * 2) a (by rw [hr])
          rw [hr] at h3
          exact h3
      | fill v =>
        dsimp only at h ⊢
        rcases hr : BinaryBuilder_ReserveSize b len a with ⟨r, b'⟩
        rw [hr] at h
        cases r with
        | some off => simp at h
        | none =>
          show b' = b
          have h3 := reserveSize_fail b len a (by rw [hr])
          rw [hr] at h3
          exact h3

lemma dict_setMinElements_fail (d : Dict) (m : Nat) (a : Bool)
    (h : (Dictionary_SetMinElements d m a).1 = false) :
    (Dictionary_SetMinElements d m a).2 = d := by
  unfold Dictionary_SetMinElements at h ⊢
  by_cases h1 : m ≤ d.maxElementCount
  · rw [if_pos h1]
  · rw [if_neg h1] at h ⊢
    dsimp only at h ⊢
    cases a with
    | true => cases h
    | false => rfl

lemma dict_reserve_fail (d : Dict) (r : Nat) (a : Bool)
    (h : (Dictionary_ReserveElements d r a).1 = false) :
    (Dictionary_ReserveElements d r a).2 = d := by
  unfold Dictionary_ReserveElements at h ⊢
  by_cases h1 : d.maxElementCount < d.elementCount + r
  · rw [if_pos h1] at h ⊢
    exact dict_setMinElements_fail d (d.maxElementCount + r) a h
  · rw [if_neg h1] at h
    cases h

lemma dict_delete_fail (d : Dict) (k : List Nat)
    (h : (Dictionary_DeleteKey d k).1 = false) :
    (Dictionary_DeleteKey d k).2 = d := by
  unfold Dictionary_DeleteKey at h ⊢
  cases hfind : dictFindExact d k with
  | none => rfl
  | some i =>
    rw [hfind] at h
    dsimp only at h
    by_cases hsh : d.elementCount - 1 - i ≠ 0
    · rw [if_pos hsh] at h
      cases h
    · rw [if_neg hsh] at h
      cases h

lemma dict_set_reserve_fail (d : Dict) (k : List Nat) (src : DataSrc) (n : Nat)
    (aRes aKey aData aGrow : Bool)
    (hpick : (Dictionary_PickEntryIndex d k).1 ≠ 0)
    (hres : (Dictionary_ReserveElements d 1 aRes).1 = false) :
    Dictionary_Set d k src n aRes aKey aData aGrow = (none, d) := by
  unfold Dictionary_Set
  dsimp only
  rw [if_neg hpick]
  rcases hr : Dictionary_ReserveElements d 1 aRes with ⟨ok, d1⟩
  have hok : ok = false := by
    rw [hr] at hres
    exact hres
  subst hok
  show (none, d1) = (none, d)
  have hd1 : d1 = d := by
    have h3 := dict_reserve_fail d 1 aRes (by rw [hr])
    rw [hr] at h3
    exact h3
  rw [hd1]

/-- A full one-slot dictionary (one valid, terminated entry; rate 1). -/
def dictFullOne : Dict :=
  { entries := [{ key := some [5, 0], data := some [1, 0], keyMaxSize := 1, dataMaxSize := 1, keySize := 1, dataSize := 1 }],
    elementCount := 1, maxElementCount := 1, expansionRate := 1 }

/-- An exhausted fixed builder (rate 1, zero capacity). -/
def bbFixedEmpty : BinaryBuilder :=
  { capacity := 0, data := [], writeOffset := 0, usedEnd := 0,
    expansionRate := 1 }

/-- A full fixed builder whose write cursor sits inside the content. -/
def bbFixedMid : BinaryBuilder :=
  { capacity := 2, data := [3, 4], writeOffset := 0, usedEnd := 2,
    expansionRate := 1 }

/-- The dictionary holding keys `[5]` and `[7]`, built by two successful
`Dictionary_Set` calls on the three-slot initial dictionary. -/
def dictTwoKeys : Dict :=
  (Dictionary_Set (Dictionary_Set (Dictionary_InitWithMinSize 3 0) [5]
    (DataSrc.copy [1]) 1 true true true true).2 [7] (DataSrc.copy [1]) 1
    true true true true).2

/-- C5 (corrected): the failure paths that report before mutating really do
leave the container exactly as it was — a failed `BinaryBuilder_ReserveSize`
or `BinaryBuilder_InsertBytes`, a `Dictionary_DeleteKey` that finds no key,
and a `Dictionary_Set` whose element reservation fails. (The original
claim's blanket statement is refuted by the counterexample: a
`Dictionary_Set` that fails *after* the spare-slot rotation — e.g. during
key allocation — returns NULL yet leaves the entry order mutated.) -/
theorem failed_calls_leave_state :
    (∀ (b : BinaryBuilder) (res : Nat) (a : Bool),
      (BinaryBuilder_ReserveSize b res a).1 = none →
      (BinaryBuilder_ReserveSize b res a).2 = b) ∧
    (∀ (b : BinaryBuilder) (src : BBSrc) (len : Nat) (a : Bool),
      (BinaryBuilder_InsertBytes b src len a).1 = false →
      (BinaryBuilder_InsertBytes b src len a).2 = b) ∧
    (∀ (d : Dict) (k : List Nat),
      (Dictionary_DeleteKey d k).1 = false → (Dictionary_DeleteKey d k).2 = d) ∧
    (∀ (d : Dict) (k : List Nat) (src : DataSrc) (n : Nat)
      (aRes aKey aData aGrow : Bool),
      (Dictionary_PickEntryIndex d k).1 ≠ 0 →
      (Dictionary_ReserveElements d 1 aRes).1 = false →
      Dictionary_Set d k src n aRes aKey aData aGrow = (none, d)) :=
  ⟨reserveSize_fail, insertBytes_fail, dict_delete_fail, dict_set_reserve_fail⟩

/-- Witness for C5 at concrete containers: an exhausted fixed builder, a
full fixed builder with the cursor mid-content, and the full one-slot
dictionary, each hit on a failing path, are returned unchanged. -/
theorem failed_calls_leave_state_witness :
    (BinaryBuilder_ReserveSize bbFixedEmpty 1 false).2 = bbFixedEmpty ∧
    (BinaryBuilder_InsertBytes bbFixedMid (BBSrc.ptr [1]) 1 false).2
      = bbFixedMid ∧
    (Dictionary_DeleteKey dictFullOne [9]).2 = dictFullOne ∧
    Dictionary_Set dictFullOne [7] (DataSrc.copy [2]) 1 false true true true
      = (none, dictFullOne) :=
  ⟨failed_calls_leave_state.1 bbFixedEmpty 1 false (by decide),
   failed_calls_leave_state.2.1 bbFixedMid (BBSrc.ptr [1]) 1 false (by decide),
   failed_calls_leave_state.2.2.1 dictFullOne [9] (by decide),
   failed_calls_leave_state.2.2.2 dictFullOne [7] (DataSrc.copy [2]) 1
     false true true true (by decide) (by decide)⟩

/-- Counterexample to C5 as stated: on the dictionary holding `[5]` and
`[7]`, a `Dictionary_Set` of `[6]` whose key allocation fails returns NULL
(`none`) yet has already rotated the spare entry into slot 1 — the visible
entry order after the call differs from the one before it. -/
theorem failed_calls_leave_state_cex :
    (Dictionary_Set dictTwoKeys [6] (DataSrc.copy [1]) 1 true false true
      true).1 = none ∧
    ((Dictionary_Set dictTwoKeys [6] (DataSrc.copy [1]) 1 true false true
      true).2.entries.getD 1 emptyEntry).key
      ≠ (dictTwoKeys.entries.getD 1 emptyEntry).key := by
  refine ⟨?_, ?_⟩ <;> decide

/-! ## DynamicStringArray (string vector) and DynamicArray (element vector) -/

/-- `dynamicstringarray_t`. String pointers stored in `array` are modeled
as byte offsets into `buffer` (so the pointer-relocation loops of the C
code, which keep the offsets intact, are identities here). -/
structure DSA where
  array : List Nat
  buffer : List Nat
  elementCount : Nat
  usedSize : Nat
  maxElementCount : Nat
  bufferSize : Nat
  expansionRate : ℚ

def DynamicStringArray_SetMinElements (s : DSA) (minCount : Nat)
    (allocOk : Bool) : Bool × DSA :=
  if minCount ≤ s.maxElementCount then (true, s)
  else if allocOk then
    (true, { s with maxElementCount := ratFloorNat ((minCount : ℚ) * s.expansionRate) })
  else (false, s)

def DynamicStringArray_SetMinBufferSize (s : DSA) (minSize : Nat)
    (allocOk : Bool) : Bool × DSA :=
  if minSize ≤ s.bufferSize then (true, s)
  else if allocOk then
    let n := ratFloorNat ((minSize : ℚ) * s.expansionRate)
    (true, { s with bufferSize := n, buffer := s.buffer.take n ++ List.replicate (n - s.buffer.length) 0 })
  else (false, s)

def DynamicStringArray_ReserveElements (s : DSA) (r : Nat) (allocOk : Bool) :
    Bool × DSA :=
  if s.maxElementCount - s.elementCount < r then
    DynamicStringArray_SetMinElements s (s.maxElementCount + r) allocOk
  else (true, s)

def DynamicStringArray_ReserveBufferSize (s : DSA) (r : Nat) (allocOk : Bool) :
    Bool × DSA :=
  if s.bufferSize - s.usedSize < r then
    DynamicStringArray_SetMinBufferSize s (s.bufferSize + r) allocOk
  else (true, s)

/-- `memchr(_string, 0, _length)`: index of the first `0` byte among the
first `len` bytes, if any. -/
def firstZero : List Nat → Nat → Option Nat
  | [], _ => none
  | _, 0 => none
  | b :: rest, Nat.succ m =>
    if b = 0 then some 0 else (firstZero rest m).map (fun i => i + 1)

/-- The length actually stored by push/insert: `_length`, clipped at an
embedded terminator found within `_length`. -/
def strEffLen (str : List Nat) (len : Nat) : Nat :=
  match firstZero str len with
  | some i => if i < len then i else len
  | none => len

def DynamicStringArray_PushSubString (s : DSA) (str : List Nat) (len : Nat)
    (aElem aBuf : Bool) : Bool × DSA :=
  if len = 0 then (false, s)
  else if str.getD 0 0 = 0 then (false, s)
  else
    match DynamicStringArray_ReserveElements s 1 aElem with
    | (false, s1) => (false, s1)
    | (true, s1) =>
      match DynamicStringArray_ReserveBufferSize s1 (strEffLen str len + 1) aBuf with
      | (false, s2) => (false, s2)
      | (true, s2) =>
        (true, { s2 with
          buffer := listWrite s2.buffer s2.usedSize
            (str.take (strEffLen str len) ++ [0]),
          usedSize := s2.usedSize + (strEffLen str len + 1),
          array := s2.array ++ [s2.usedSize],
          elementCount := s2.elementCount + 1 })

def DynamicStringArray_InsertSubString (s : DSA) (idx : Nat) (str : List Nat)
    (len : Nat) (aElem aBuf : Bool) : Bool × DSA :=
  if len = 0 then (false, s)
  else if str.getD 0 0 = 0 then (false, s)
  else if s.elementCount ≤ idx then (false, s)
  else
    match DynamicStringArray_ReserveElements s 1 aElem with
    | (false, s1) => (false, s1)
    | (true, s1) =>
      match DynamicStringArray_ReserveBufferSize s1 (strEffLen str len + 1) aBuf with
      | (false, s2) => (false, s2)
      | (true, s2) =>
        let size := strEffLen str len + 1
        let o := s2.array.getD idx 0
        let b1 := if s2.usedSize - o ≠ 0 then
            listMove s2.buffer (o + size) o (s2.usedSize - o)
          else s2.buffer
        (true, { s2 with
          buffer := listWrite b1 o (str.take (strEffLen str len) ++ [0]),
          usedSize := s2.usedSize + size,
          array := s2.array.take idx ++ [o]
            ++ (s2.array.drop idx).map (fun x => x + size),
          elementCount := s2.elementCount + 1 })

/-- `dynamicarray_t`: a raw byte block of `maxElementCount * elementSize`
bytes. -/
structure DynArr where
  array : List Nat
  elementCount : Nat
  maxElementCount : Nat
  elementSize : Nat
  expansionRate : ℚ

def DynamicArray_SetMinElementsWithSize (o : DynArr) (minCount eSize : Nat)
    (allocOk : Bool) : Bool × DynArr :=
  if minCount * eSize ≤ o.maxElementCount * o.elementSize then (true, o)
  else if allocOk then
    (true, { o with
      array := o.array.take (minCount * eSize)
        ++ List.replicate (minCount * eSize - o.array.length) 0,
      maxElementCount := minCount, elementSize := eSize })
  else (false, o)

def DynamicArray_ReserveElements (o : DynArr) (r : Nat) (allocOk : Bool) :
    Bool × DynArr :=
  if o.maxElementCount < o.elementCount + r then
    DynamicArray_SetMinElementsWithSize o
      (ratFloorNat (((o.maxElementCount + r : Nat) : ℚ) * o.expansionRate))
      o.elementSize allocOk
  else (true, o)

def DynamicArray_Push (o : DynArr) (v : List Nat) (allocOk : Bool) :
    Bool × DynArr :=
  match DynamicArray_ReserveElements o 1 allocOk with
  | (false, o1) => (false, o1)
  | (true, o1) =>
    (true, { o1 with
      array := listWrite o1.array (o1.elementCount * o1.elementSize)
        (v.take o1.elementSize),
      elementCount := o1.elementCount + 1 })

/-- `DynamicArray_Insert`: out-of-bounds indices fall back to `Push`; the
in-bounds path stages the value past the content, shifts, and copies it
back in. -/
def DynamicArray_Insert (o : DynArr) (idx : Nat) (v : List Nat)
    (allocOk : Bool) : Bool × DynArr :=
  if o.elementCount ≤ idx then DynamicArray_Push o v allocOk
  else
    match DynamicArray_ReserveElements o 2 allocOk with
    | (false, o1) => (false, o1)
    | (true, o1) =>
      let tmp := listWrite o1.array ((o1.elementCount + 1) * o1.elementSize)
        (v.take o1.elementSize)
      let moved := listMove tmp (idx * o1.elementSize + o1.elementSize)
        (idx * o1.elementSize) ((o1.elementCount - idx) * o1.elementSize)
      (true, { o1 with
        array := listWrite moved (idx * o1.elementSize)
          ((tmp.drop ((o1.elementCount + 1) * o1.elementSize)).take o1.elementSize),
        elementCount := o1.elementCount + 1 })

/-- Well-formed string vector: the index holds exactly the valid elements,
content fits, the blocks are as large as announced, and the expansion rate
is at least 1. -/
def DSAInv (s : DSA) : Prop :=
  s.array.length = s.elementCount ∧ s.usedSize ≤ s.bufferSize ∧
  s.buffer.length = s.bufferSize ∧ s.elementCount ≤ s.maxElementCount ∧
  1 ≤ s.expansionRate

instance (s : DSA) : Decidable (DSAInv s) := by
  unfold DSAInv
  infer_instance

lemma listWrite_slice {α : Type} (l : List α) (off : Nat) (v : List α)
    (h : off ≤ l.length) :
    ((listWrite l off v).drop off).take v.length = v := by
  unfold listWrite
  have hlen : (l.take off).length = off := by
    simp only [List.length_take]
    omega
  rw [List.append_assoc, List.drop_left' hlen, List.take_left]

lemma dsa_reserveElements_spec (s : DSA) (r : Nat) (a : Bool)
    (hInv : DSAInv s) :
    ((DynamicStringArray_ReserveElements s r a).1 = false →
      (DynamicStringArray_ReserveElements s r a).2 = s) ∧
    ((DynamicStringArray_ReserveElements s r a).1 = true →
      DSAInv (DynamicStringArray_ReserveElements s r a).2 ∧
      (DynamicStringArray_ReserveElements s r a).2.array = s.array ∧
      (DynamicStringArray_ReserveElements s r a).2.buffer = s.buffer ∧
      (DynamicStringArray_ReserveElements s r a).2.elementCount = s.elementCount ∧
      (DynamicStringArray_ReserveElements s r a).2.usedSize = s.usedSize ∧
      (DynamicStringArray_ReserveElements s r a).2.bufferSize = s.bufferSize ∧
      (DynamicStringArray_ReserveElements s r a).2.expansionRate = s.expansionRate ∧
      s.elementCount + r ≤ (DynamicStringArray_ReserveElements s r a).2.maxElementCount) := by
  obtain ⟨h1, h2, h3, h4, h5⟩ := hInv
  unfold DynamicStringArray_ReserveElements DynamicStringArray_SetMinElements
  by_cases hneed : s.maxElementCount - s.elementCount < r
  · rw [if_pos hneed, if_neg (by omega)]
    cases a with
    | true =>
      rw [if_pos rfl]
      have hgrow := le_ratFloorNat_mul (s.maxElementCount + r) s.expansionRate h5
      exact ⟨(fun h => by cases h), fun _ =>
        ⟨⟨h1, h2, h3, (by dsimp only; omega), h5⟩, rfl, rfl, rfl, rfl, rfl, rfl,
          (by dsimp only; omega)⟩⟩
    | false =>
      rw [if_neg (by simp)]
      exact ⟨fun _ => rfl, (fun h => by cases h)⟩
  · rw [if_neg hneed]
    exact ⟨(fun h => by cases h), fun _ =>
      ⟨⟨h1, h2, h3, h4, h5⟩, rfl, rfl, rfl, rfl, rfl, rfl,
        (by show s.elementCount + r ≤ s.maxElementCount; omega)⟩⟩

lemma dsa_reserveBufferSize_spec (s : DSA) (r : Nat) (a : Bool)
    (hInv : DSAInv s) :
    ((DynamicStringArray_ReserveBufferSize s r a).1 = false →
      (DynamicStringArray_ReserveBufferSize s r a).2 = s) ∧
    ((DynamicStringArray_ReserveBufferSize s r a).1 = true →
      DSAInv (DynamicStringArray_ReserveBufferSize s r a).2 ∧
      (DynamicStringArray_ReserveBufferSize s r a).2.array = s.array ∧
      (DynamicStringArray_ReserveBufferSize s r a).2.elementCount = s.elementCount ∧
      (DynamicStringArray_ReserveBufferSize s r a).2.usedSize = s.usedSize ∧
      (DynamicStringArray_ReserveBufferSize s r a).2.maxElementCount = s.maxElementCount ∧
      (DynamicStringArray_ReserveBufferSize s r a).2.expansionRate = s.expansionRate ∧
      (DynamicStringArray_ReserveBufferSize s r a).2.buffer.take s.usedSize
        = s.buffer.take s.usedSize ∧
      s.usedSize + r ≤ (DynamicStringArray_ReserveBufferSize s r a).2.bufferSize) := by
  obtain ⟨h1, h2, h3, h4, h5⟩ := hInv
  unfold DynamicStringArray_ReserveBufferSize DynamicStringArray_SetMinBufferSize
  by_cases hneed : s.bufferSize - s.usedSize < r
  · rw [if_pos hneed, if_neg (by omega)]
    cases a with
    | true =>
      rw [if_pos rfl]
      have hgrow := le_ratFloorNat_mul (s.bufferSize + r) s.expansionRate h5
      refine ⟨(fun h => by cases h), fun _ => ?_⟩
      dsimp only
      refine ⟨⟨h1, ?_, ?_, h4, h5⟩, rfl, rfl, rfl, rfl, rfl, ?_, ?_⟩
      · show s.usedSize ≤ ratFloorNat (((s.bufferSize + r : Nat) : ℚ) * s.expansionRate)
        omega
      · show (s.buffer.take (ratFloorNat (((s.bufferSize + r : Nat) : ℚ) * s.expansionRate)) ++ List.replicate (ratFloorNat (((s.bufferSize + r : Nat) : ℚ) * s.expansionRate) - s.buffer.length) 0).length = ratFloorNat (((s.bufferSize + r : Nat) : ℚ) * s.expansionRate)
        simp only [List.length_append, List.length_take, List.length_replicate]
        omega
      · show (s.buffer.take (ratFloorNat (((s.bufferSize + r : Nat) : ℚ) * s.expansionRate)) ++ List.replicate (ratFloorNat (((s.bufferSize + r : Nat) : ℚ) * s.expansionRate) - s.buffer.length) 0).take s.usedSize = s.buffer.take s.usedSize
        rw [List.take_append_of_le_length (by simp only [List.length_take]; omega),
          List.take_take, min_eq_left (by omega)]
      · show s.usedSize + r ≤ ratFloorNat (((s.bufferSize + r : Nat) : ℚ) * s.expansionRate)
        omega
    | false =>
      rw [if_neg (by simp)]
      exact ⟨fun _ => rfl, (fun h => by cases h)⟩
  · rw [if_neg hneed]
    exact ⟨(fun h => by cases h), fun _ =>
      ⟨⟨h1, h2, h3, h4, h5⟩, rfl, rfl, rfl, rfl, rfl, rfl,
        (by show s.usedSize + r ≤ s.bufferSize; omega)⟩⟩

lemma firstZero_none_spec (str : List Nat) : ∀ len, firstZero str len = none →
    ∀ j, j < len → j < str.length → str.getD j 0 ≠ 0 := by
  induction str with
  | nil =>
    intro len _ j _ hj
    simp at hj
  | cons b rest ih =>
    intro len hnone j hjlen hjstr
    cases len with
    | zero => omega
    | succ m =>
      simp only [firstZero] at hnone
      by_cases hb : b = 0
      · rw [if_pos hb] at hnone
        cases hnone
      · rw [if_neg hb] at hnone
        cases j with
        | zero => exact hb
        | succ j' =>
          have hrest : firstZero rest m = none := by
            cases hfz : firstZero rest m with
            | none => rfl
            | some i =>
              rw [hfz] at hnone
              cases hnone
          exact ih m hrest j' (by omega) (by simpa using hjstr)

lemma firstZero_some_spec (str : List Nat) : ∀ len i, firstZero str len = some i →
    i < len ∧ i < str.length ∧ str.getD i 0 = 0 ∧
    ∀ j, j < i → str.getD j 0 ≠ 0 := by
  induction str with
  | nil =>
    intro len i h
    cases len with
    | zero =>
      simp only [firstZero] at h
      exact Option.noConfusion h
    | succ m =>
      simp only [firstZero] at h
      exact Option.noConfusion h
  | cons b rest ih =>
    intro len i hsome
    cases len with
    | zero => cases hsome
    | succ m =>
      simp only [firstZero] at hsome
      by_cases hb : b = 0
      · rw [if_pos hb] at hsome
        cases hsome
        exact ⟨by omega, by simp, hb, fun j hj => by omega⟩
      · rw [if_neg hb] at hsome
        cases hfz : firstZero rest m with
        | none =>
          rw [hfz] at hsome
          cases hsome
        | some i' =>
          rw [hfz] at hsome
          have hieq : i = i' + 1 := by
            cases hsome
            rfl
          subst hieq
          obtain ⟨ha, hb2, hc, hd⟩ := ih m i' hfz
          refine ⟨by omega, by simp; omega, by simpa using hc, ?_⟩
          intro j hj
          cases j with
          | zero => exact hb
          | succ j' => simpa using hd j' (by omega)

lemma strEffLen_spec (str : List Nat) (len : Nat) (hlen : len ≤ str.length) :
    strEffLen str len ≤ len ∧
    (∀ i, i < strEffLen str len → str.getD i 0 ≠ 0) ∧
    (strEffLen str len < len → str.getD (strEffLen str len) 0 = 0) := by
  unfold strEffLen
  cases hfz : firstZero str len with
  | none =>
    dsimp only
    refine ⟨le_refl len, ?_, ?_⟩
    · intro i hi
      exact firstZero_none_spec str len hfz i hi (by omega)
    · intro h
      omega
  | some i =>
    dsimp only
    obtain ⟨ha, hb, hc, hd⟩ := firstZero_some_spec str len i hfz
    rw [if_pos ha]
    exact ⟨by omega, hd, fun _ => hc⟩

/-- C8: `DynamicStringArray_PushSubString` rejects empty input (zero length
or a leading terminator) without touching the vector; on success it stores
exactly `strEffLen` bytes — `maxLength` clipped at the first embedded
terminator within `maxLength` — appends one index slot pointing at the old
end of the buffer, and appends those bytes plus a terminator there. -/
theorem push_substring_spec (s : DSA) (str : List Nat) (len : Nat)
    (aElem aBuf : Bool) (hInv : DSAInv s) (hlen : len ≤ str.length) :
    (len = 0 ∨ str.getD 0 0 = 0 →
      DynamicStringArray_PushSubString s str len aElem aBuf = (false, s)) ∧
    ((DynamicStringArray_PushSubString s str len aElem aBuf).1 = true →
      (DynamicStringArray_PushSubString s str len aElem aBuf).2.elementCount
        = s.elementCount + 1 ∧
      (DynamicStringArray_PushSubString s str len aElem aBuf).2.array
        = s.array ++ [s.usedSize] ∧
      (DynamicStringArray_PushSubString s str len aElem aBuf).2.usedSize
        = s.usedSize + (strEffLen str len + 1) ∧
      (((DynamicStringArray_PushSubString s str len aElem aBuf).2.buffer.drop
          s.usedSize).take (strEffLen str len + 1))
        = str.take (strEffLen str len) ++ [0] ∧
      strEffLen str len ≤ len ∧
      (∀ i, i < strEffLen str len → str.getD i 0 ≠ 0) ∧
      (strEffLen str len < len → str.getD (strEffLen str len) 0 = 0)) := by
  obtain ⟨heff1, heff2, heff3⟩ := strEffLen_spec str len hlen
  constructor
  · intro h
    unfold DynamicStringArray_PushSubString
    by_cases h0 : len = 0
    · rw [if_pos h0]
    · rw [if_neg h0]
      rcases h with h | h
      · exact absurd h h0
      · rw [if_pos h]
  · intro hsucc
    unfold DynamicStringArray_PushSubString at hsucc ⊢
    by_cases h0 : len = 0
    · rw [if_pos h0] at hsucc
      cases hsucc
    · rw [if_neg h0] at hsucc ⊢
      by_cases hstr0 : str.getD 0 0 = 0
      · rw [if_pos hstr0] at hsucc
        cases hsucc
      · rw [if_neg hstr0] at hsucc ⊢
        rcases hr1 : DynamicStringArray_ReserveElements s 1 aElem with ⟨ok1, s1⟩
        rw [hr1] at hsucc
        cases ok1 with
        | false =>
          dsimp only at hsucc
          cases hsucc
        | true =>
          dsimp only at hsucc ⊢
          obtain ⟨_, hE⟩ := dsa_reserveElements_spec s 1 aElem hInv
          obtain ⟨hInv1, hEarr, hEbuf, hEcnt, hEused, hEbsz, hErate, hEmax⟩ :=
            hE (by rw [hr1])
          rw [hr1] at hInv1 hEarr hEbuf hEcnt hEused hEbsz hErate hEmax
          dsimp only at hInv1 hEarr hEbuf hEcnt hEused hEbsz hErate hEmax
          rcases hr2 : DynamicStringArray_ReserveBufferSize s1
            (strEffLen str len + 1) aBuf with ⟨ok2, s2⟩
          rw [hr2] at hsucc
          cases ok2 with
          | false =>
            dsimp only at hsucc
            cases hsucc
          | true =>
            dsimp only at hsucc ⊢
            obtain ⟨_, hB⟩ := dsa_reserveBufferSize_spec s1
              (strEffLen str len + 1) aBuf hInv1
            obtain ⟨hInv2, hBarr, hBcnt, hBused, hBmax, hBrate, hBpre, hBsz⟩ :=
              hB (by rw [hr2])
            rw [hr2] at hInv2 hBarr hBcnt hBused hBmax hBrate hBpre hBsz
            dsimp only at hInv2 hBarr hBcnt hBused hBmax hBrate hBpre hBsz
            have hwlen : (str.take (strEffLen str len) ++ [0]).length
                = strEffLen str len + 1 := by
              simp only [List.length_append, List.length_take,
                List.length_cons, List.length_nil]
              omega
            have hoff : s2.usedSize + (strEffLen str len + 1) ≤ s2.buffer.length := by
              have hb1 := hInv2.2.1
              have hb2 := hInv2.2.2.1
              omega
            refine ⟨?_, ?_, ?_, ?_, heff1, heff2, heff3⟩
            · show s2.elementCount + 1 = s.elementCount + 1
              omega
            · show s2.array ++ [s2.usedSize] = s.array ++ [s.usedSize]
              rw [hBarr, hEarr, hBused, hEused]
            · show s2.usedSize + (strEffLen str len + 1)
                = s.usedSize + (strEffLen str len + 1)
              omega
            · show ((listWrite s2.buffer s2.usedSize
                  (str.take (strEffLen str len) ++ [0])).drop s.usedSize).take
                  (strEffLen str len + 1) = str.take (strEffLen str len) ++ [0]
              rw [← hwlen, ← hEused, ← hBused]
              exact listWrite_slice s2.buffer s2.usedSize _ (by omega)

/-- A string vector with one free index slot and four free buffer bytes. -/
def dsaFour : DSA :=
  { array := [], buffer := [0, 0, 0, 0], elementCount := 0, usedSize := 0,
    maxElementCount := 1, bufferSize := 4, expansionRate := 1 }

/-- Witness for C8: pushing `"AB"` (no embedded terminator within 2) onto
the empty vector stores 2 bytes plus a terminator at offset 0 and appends
index slot 0. -/
theorem push_substring_spec_witness :
    (DynamicStringArray_PushSubString dsaFour [65, 66, 0] 2 true true).2.elementCount = 1 ∧
    (DynamicStringArray_PushSubString dsaFour [65, 66, 0] 2 true true).2.array = [0] ∧
    (DynamicStringArray_PushSubString dsaFour [65, 66, 0] 2 true true).2.usedSize = 3 ∧
    (((DynamicStringArray_PushSubString dsaFour [65, 66, 0] 2 true
      true).2.buffer.drop 0).take 3) = [65, 66, 0] ∧
    strEffLen [65, 66, 0] 2 ≤ 2 ∧
    (∀ i, i < strEffLen [65, 66, 0] 2 → ([65, 66, 0] : List Nat).getD i 0 ≠ 0) ∧
    (strEffLen [65, 66, 0] 2 < 2 →
      ([65, 66, 0] : List Nat).getD (strEffLen [65, 66, 0] 2) 0 = 0) :=
  (push_substring_spec dsaFour [65, 66, 0] 2 true true (by decide)
    (by decide)).2 (by decide)

/-- The empty string vector (rate 1, no storage). -/
def dsaEmpty : DSA :=
  { array := [], buffer := [], elementCount := 0, usedSize := 0,
    maxElementCount := 0, bufferSize := 0, expansionRate := 1 }

/-- A one-element, one-byte-element vector. -/
def dynOne : DynArr :=
  { array := [7], elementCount := 1, maxElementCount := 1, elementSize := 1,
    expansionRate := 1 }

/-- C9: an out-of-bounds index makes `DynamicStringArray_InsertSubString`
fail with the vector untouched, whereas `DynamicArray_Insert` falls back
to `DynamicArray_Push` on an out-of-bounds index. -/
theorem insert_oob_contrast :
    (∀ (s : DSA) (idx : Nat) (str : List Nat) (len : Nat) (aElem aBuf : Bool),
      s.elementCount ≤ idx →
      DynamicStringArray_InsertSubString s idx str len aElem aBuf = (false, s)) ∧
    (∀ (o : DynArr) (idx : Nat) (v : List Nat) (a : Bool),
      o.elementCount ≤ idx →
      DynamicArray_Insert o idx v a = DynamicArray_Push o v a) := by
  constructor
  · intro s idx str len aElem aBuf hidx
    unfold DynamicStringArray_InsertSubString
    by_cases h0 : len = 0
    · rw [if_pos h0]
    · rw [if_neg h0]
      by_cases h1 : str.getD 0 0 = 0
      · rw [if_pos h1]
      · rw [if_neg h1, if_pos hidx]
  · intro o idx v a hidx
    unfold DynamicArray_Insert
    rw [if_pos hidx]

/-- Witness for C9: inserting at index 0 of the empty string vector fails
and leaves it unchanged; inserting at index 1 of the one-element byte
vector is exactly a push. -/
theorem insert_oob_contrast_witness :
    DynamicStringArray_InsertSubString dsaEmpty 0 [65] 1 true true
      = (false, dsaEmpty) ∧
    DynamicArray_Insert dynOne 1 [9] true = DynamicArray_Push dynOne [9] true :=
  ⟨insert_oob_contrast.1 dsaEmpty 0 [65] 1 true true (by decide),
   insert_oob_contrast.2 dynOne 1 [9] true (by decide)⟩

/-- C3 (corrected): only the byte-buffer builder honors the fixed-container
marking — with `expansionRate ≤ 1` any growth request fails with no
reallocation. `Dictionary_SetMinElements` and
`DynamicStringArray_SetMinElements` have no such guard: whenever the
backing allocation succeeds they reallocate regardless of the rate, to the
rate-multiplied size. (The original claim over all three containers is
refuted by the counterexample below.) -/
theorem fixed_container_growth :
    (∀ (b : BinaryBuilder) (m : Nat) (a : Bool), b.expansionRate ≤ 1 →
      b.capacity < m → BinaryBuilder_SetMinSize b m a = (false, b)) ∧
    (∀ (d : Dict) (m : Nat), d.maxElementCount < m →
      (Dictionary_SetMinElements d m true).1 = true ∧
      (Dictionary_SetMinElements d m true).2.maxElementCount
        = ratFloorNat ((m : ℚ) * d.expansionRate)) ∧
    (∀ (s : DSA) (m : Nat), s.maxElementCount < m →
      (DynamicStringArray_SetMinElements s m true).1 = true ∧
      (DynamicStringArray_SetMinElements s m true).2.maxElementCount
        = ratFloorNat ((m : ℚ) * s.expansionRate)) := by
  refine ⟨?_, ?_, ?_⟩
  · intro b m a hrate hcap
    unfold BinaryBuilder_SetMinSize
    rw [if_neg (by omega), if_pos hrate]
  · intro d m hm
    unfold Dictionary_SetMinElements
    rw [if_neg (by omega)]
    exact ⟨rfl, rfl⟩
  · intro s m hm
    unfold DynamicStringArray_SetMinElements
    rw [if_neg (by omega)]
    exact ⟨rfl, rfl⟩

/-- Witness for C3 at concrete containers: the exhausted fixed builder
refuses to grow to 1 byte; the full fixed dictionary and the empty fixed
string vector happily "grow" to the rate-multiplied sizes. -/
theorem fixed_container_growth_witness :
    BinaryBuilder_SetMinSize bbFixedEmpty 1 false = (false, bbFixedEmpty) ∧
    ((Dictionary_SetMinElements dictFullOne 2 true).1 = true ∧
      (Dictionary_SetMinElements dictFullOne 2 true).2.maxElementCount
        = ratFloorNat (((2 : Nat) : ℚ) * dictFullOne.expansionRate)) ∧
    ((DynamicStringArray_SetMinElements dsaEmpty 1 true).1 = true ∧
      (DynamicStringArray_SetMinElements dsaEmpty 1 true).2.maxElementCount
        = ratFloorNat (((1 : Nat) : ℚ) * dsaEmpty.expansionRate)) :=
  ⟨fixed_container_growth.1 bbFixedEmpty 1 false (le_refl 1) (by decide),
   fixed_container_growth.2.1 dictFullOne 2 (by decide),
   fixed_container_growth.2.2 dsaEmpty 1 (by decide)⟩

/-- Counterexample to C3 as stated: `dictFullOne` is marked fixed
(expansion factor `0`, stored rate `0 + 1`) and holds 1 slot, yet
`Dictionary_SetMinElements` to 2 slots *succeeds* and reallocates the
entry array to 2 slots instead of failing. -/
theorem fixed_container_growth_cex :
    dictFullOne.expansionRate = 0 + 1 ∧
    (Dictionary_SetMinElements dictFullOne 2 true).1 = true ∧
    (Dictionary_SetMinElements dictFullOne 2 true).2.maxElementCount = 2 := by
  refine ⟨(by show (1 : ℚ) = 0 + 1; norm_num), rfl, ?_⟩
  show ratFloorNat (((2 : Nat) : ℚ) * (1 : ℚ)) = 2
  rw [mul_one, ratFloorNat_natCast]
